import Mathlib

/-!
Verification of the media-extraction and deduplication pipeline of the
cardy-showcase repository ("Scraping Script/amazon_product_scraper.py" and
"Scraping Script/batch_scraper.py").

Strings are embedded as `List Char`.  Python regular-expression operations
used by the scraper are embedded as executable scanning functions over
`List Char`, faithful to `re.search` / `re.sub` / `re.findall` leftmost and
greedy semantics for the concrete patterns appearing in the source.
-/

namespace Cardy

/-! ### Character helpers -/

/-- Decimal digit test, the semantics of the regex class `\d` restricted to
ASCII as Python applies it to these URL strings. -/
def isDigitC (c : Char) : Bool := 48 ≤ c.toNat && c.toNat ≤ 57

/-- ASCII lowercasing of one character, the effect of `str.lower()` /
`re.IGNORECASE` on the ASCII URL strings handled by the scraper. -/
def lowC (c : Char) : Char :=
  match c with
  | 'A' => 'a' | 'B' => 'b' | 'C' => 'c' | 'D' => 'd' | 'E' => 'e'
  | 'F' => 'f' | 'G' => 'g' | 'H' => 'h' | 'I' => 'i' | 'J' => 'j'
  | 'K' => 'k' | 'L' => 'l' | 'M' => 'm' | 'N' => 'n' | 'O' => 'o'
  | 'P' => 'p' | 'Q' => 'q' | 'R' => 'r' | 'S' => 's' | 'T' => 't'
  | 'U' => 'u' | 'V' => 'v' | 'W' => 'w' | 'X' => 'x' | 'Y' => 'y'
  | 'Z' => 'z' | c => c

theorem isDigitC_lowC (c : Char) : isDigitC (lowC c) = isDigitC c := by
  unfold lowC; split <;> rfl

/-! ### Generic scanning primitives (literal-prefix and substring tests) -/

/-- Literal-prefix test, `s.startswith(p)` / a literal at the head of a
regex match. -/
def isPreL [DecidableEq α] : List α → List α → Bool
  | [], _ => true
  | _ :: _, [] => false
  | a :: p, b :: s => decide (a = b) && isPreL p s

/-- Strip a literal prefix, returning the remainder. -/
def dropPre [DecidableEq α] : List α → List α → Option (List α)
  | [], s => some s
  | _ :: _, [] => none
  | a :: p, b :: s => if a = b then dropPre p s else none

/-- Substring containment, Python `p in s` / `re.search` of a literal. -/
def containsL [DecidableEq α] (p : List α) : List α → Bool
  | [] => decide (p = [])
  | b :: s => isPreL p (b :: s) || containsL p s

theorem isPreL_iff [DecidableEq α] (p s : List α) :
    isPreL p s = true ↔ ∃ r, s = p ++ r := by
  induction p generalizing s with
  | nil => simp [isPreL]
  | cons a p ih =>
    cases s with
    | nil => simp [isPreL]
    | cons b s =>
      simp only [isPreL, Bool.and_eq_true, decide_eq_true_eq, ih]
      constructor
      · rintro ⟨rfl, r, rfl⟩; exact ⟨r, rfl⟩
      · rintro ⟨r, h⟩
        injection h with h1 h2
        exact ⟨h1.symm, r, h2⟩

theorem dropPre_eq_some [DecidableEq α] (p s r : List α) :
    dropPre p s = some r ↔ s = p ++ r := by
  induction p generalizing s with
  | nil => simp [dropPre]
  | cons a p ih =>
    cases s with
    | nil => simp [dropPre]
    | cons b s =>
      simp only [dropPre, List.cons_append]
      by_cases hab : a = b
      · subst hab
        simp [ih]
      · rw [if_neg hab]
        constructor
        · intro h; cases h
        · intro h
          injection h with h1 _
          exact absurd h1.symm hab

theorem dropPre_append_self [DecidableEq α] (p r : List α) :
    dropPre p (p ++ r) = some r :=
  (dropPre_eq_some _ _ _).mpr rfl

theorem isPreL_append_self [DecidableEq α] (p r : List α) :
    isPreL p (p ++ r) = true := by
  rw [isPreL_iff]; exact ⟨r, rfl⟩

theorem containsL_iff [DecidableEq α] (p s : List α) :
    containsL p s = true ↔ ∃ x y, s = x ++ p ++ y := by
  induction s with
  | nil =>
    simp only [containsL, decide_eq_true_eq]
    constructor
    · rintro rfl; exact ⟨[], [], rfl⟩
    · rintro ⟨x, y, h⟩
      cases x <;> cases p <;> simp_all
  | cons b s ih =>
    simp only [containsL, Bool.or_eq_true, isPreL_iff, ih]
    constructor
    · rintro (⟨r, hr⟩ | ⟨x, y, rfl⟩)
      · exact ⟨[], r, by simpa using hr⟩
      · exact ⟨b :: x, y, rfl⟩
    · rintro ⟨x, y, h⟩
      cases x with
      | nil => exact Or.inl ⟨y, by simpa using h⟩
      | cons c x =>
        right
        rw [List.cons_append, List.cons_append] at h
        injection h with _ h2
        exact ⟨x, y, h2⟩

theorem containsL_cons_of [DecidableEq α] (p : List α) (b : α) (s : List α)
    (h : containsL p s = true) : containsL p (b :: s) = true := by
  simp [containsL, h]

theorem containsL_of_append_right [DecidableEq α] (p x s : List α)
    (h : containsL p s = true) : containsL p (x ++ s) = true := by
  induction x with
  | nil => simpa using h
  | cons b x ih => exact containsL_cons_of _ _ _ ih

/-! ### The size-token rewrite `re.sub(r'_AC_SL\d+_', '_AC_SL1500_', url)` -/

def preSL : List Char := "_AC_SL".toList

def replSL : List Char := "_AC_SL1500_".toList

theorem takeWhile_all_append {p : Char → Bool} {ds : List Char} (hall : ds.all p = true)
    {c : Char} (hc : p c = false) (t : List Char) :
    (ds ++ c :: t).takeWhile p = ds := by
  induction ds with
  | nil => simp [List.takeWhile_cons, hc]
  | cons d ds ih =>
    simp only [List.all_cons, Bool.and_eq_true] at hall
    simp [List.takeWhile_cons, hall.1, ih hall.2]

theorem dropWhile_all_append {p : Char → Bool} {ds : List Char} (hall : ds.all p = true)
    {c : Char} (hc : p c = false) (t : List Char) :
    (ds ++ c :: t).dropWhile p = c :: t := by
  induction ds with
  | nil => simp [List.dropWhile_cons, hc]
  | cons d ds ih =>
    simp only [List.all_cons, Bool.and_eq_true] at hall
    simp [List.dropWhile_cons, hall.1, ih hall.2]

/-- Match of the regex `_AC_SL\d+_` at the head of `s`: if `s` begins with
the literal `_AC_SL`, then one or more digits, then `_`, return the
remainder after the match. -/
def matchSL (s : List Char) : Option (List Char) :=
  (dropPre preSL s).bind fun r =>
    if (r.takeWhile isDigitC).isEmpty then none
    else
      match r.dropWhile isDigitC with
      | '_' :: t => some t
      | _ => none

theorem matchSL_eq_some (s t : List Char) :
    matchSL s = some t ↔
      ∃ ds, ds ≠ [] ∧ ds.all isDigitC = true ∧ s = preSL ++ ds ++ '_' :: t := by
  constructor
  · intro h
    unfold matchSL at h
    cases hd : dropPre preSL s with
    | none => rw [hd] at h; cases h
    | some r =>
      rw [hd, Option.some_bind] at h
      split at h
      · cases h
      · rename_i he
        split at h
        · rename_i t' hdw
          injection h with h
          subst h
          refine ⟨r.takeWhile isDigitC, by simpa using he, ?_, ?_⟩
          · rw [List.all_eq_true]
            intro c hc
            exact List.mem_takeWhile_imp hc
          · have hr : s = preSL ++ r := (dropPre_eq_some _ _ _).mp hd
            have hr2 : r = r.takeWhile isDigitC ++ r.dropWhile isDigitC :=
              (@List.takeWhile_append_dropWhile _ isDigitC r).symm
            rw [hr, List.append_assoc, ← hdw]
            exact congrArg _ hr2
        · cases h
  · rintro ⟨ds, hne, hall, rfl⟩
    have h_ : isDigitC '_' = false := by decide
    unfold matchSL
    rw [List.append_assoc, dropPre_append_self, Option.some_bind,
      takeWhile_all_append hall h_, dropWhile_all_append hall h_,
      if_neg (by simpa using hne)]
    rfl

theorem matchSL_length {s t : List Char} (h : matchSL s = some t) :
    t.length < s.length := by
  rcases (matchSL_eq_some s t).mp h with ⟨ds, hne, _, rfl⟩
  simp only [List.length_append, List.length_cons]
  have : 0 < ds.length := List.length_pos.mpr hne
  omega

/-- Fuelled global substitution of `_AC_SL\d+_` by `_AC_SL1500_`, scanning
left to right and resuming after each match, the semantics of `re.sub`. -/
def subSLF : Nat → List Char → List Char
  | 0, s => s
  | _ + 1, [] => []
  | n + 1, c :: s =>
    match matchSL (c :: s) with
    | some t => replSL ++ subSLF n t
    | none => c :: subSLF n s

/-- `re.sub(r'_AC_SL\d+_', '_AC_SL1500_', url)` (amazon_product_scraper.py
line 320 and line 505). -/
def subSL (s : List Char) : List Char := subSLF s.length s

theorem subSLF_cons_match {n : Nat} {c : Char} {s t : List Char}
    (h : matchSL (c :: s) = some t) :
    subSLF (n + 1) (c :: s) = replSL ++ subSLF n t := by
  show (match matchSL (c :: s) with
        | some t => replSL ++ subSLF n t
        | none => c :: subSLF n s) = replSL ++ subSLF n t
  rw [h]

theorem subSLF_cons_nomatch {n : Nat} {c : Char} {s : List Char}
    (h : matchSL (c :: s) = none) :
    subSLF (n + 1) (c :: s) = c :: subSLF n s := by
  show (match matchSL (c :: s) with
        | some t => replSL ++ subSLF n t
        | none => c :: subSLF n s) = c :: subSLF n s
  rw [h]

theorem subSLF_eq : ∀ (n m : Nat) (s : List Char), s.length ≤ n → s.length ≤ m →
    subSLF n s = subSLF m s := by
  intro n
  induction n with
  | zero =>
    intro m s hn _
    have hs : s = [] := List.eq_nil_of_length_eq_zero (Nat.le_zero.mp hn)
    subst hs
    cases m <;> rfl
  | succ n ih =>
    intro m s hn hm
    cases s with
    | nil => cases m <;> rfl
    | cons c s =>
      cases m with
      | zero => simp at hm
      | succ m =>
        simp only [List.length_cons] at hn hm
        cases hmt : matchSL (c :: s) with
        | some t =>
          have hl : t.length < s.length + 1 := by
            have := matchSL_length hmt; simpa using this
          rw [subSLF_cons_match hmt, subSLF_cons_match hmt,
            ih m t (by omega) (by omega)]
        | none =>
          rw [subSLF_cons_nomatch hmt, subSLF_cons_nomatch hmt,
            ih m s (by omega) (by omega)]

theorem subSL_nil : subSL [] = [] := rfl

theorem subSL_cons_match {c : Char} {s t : List Char} (h : matchSL (c :: s) = some t) :
    subSL (c :: s) = replSL ++ subSL t := by
  have hl : t.length ≤ s.length := by
    have := matchSL_length h; simp only [List.length_cons] at this; omega
  show subSLF (s.length + 1) (c :: s) = _
  rw [subSLF_cons_match h]
  congr 1
  exact subSLF_eq s.length t.length t hl le_rfl

theorem subSL_cons_nomatch {c : Char} {s : List Char} (h : matchSL (c :: s) = none) :
    subSL (c :: s) = c :: subSL s := by
  show subSLF (s.length + 1) (c :: s) = _
  rw [subSLF_cons_nomatch h]
  rfl

/-- The scraper's resolution upgrade (lines 319-320 / 504-505):
rewrite every `_AC_SL<n>_` token to `_AC_SL1500_`, but only when the
case-sensitive substring `._AC_SL` occurs in the URL. -/
def upgrade (u : List Char) : List Char :=
  if containsL "._AC_SL".toList u then subSL u else u

theorem matchSL_nil : matchSL [] = none := rfl

theorem replSL_eq : replSL = '_' :: "AC_SL1500_".toList := rfl

theorem subSL_head_ne {a : Char} {z rest : List Char} (ha : a ≠ '_')
    (h : subSL z = a :: rest) : ∃ z1, z = a :: z1 ∧ subSL z1 = rest := by
  cases z with
  | nil => rw [subSL_nil] at h; cases h
  | cons c z1 =>
    cases hm : matchSL (c :: z1) with
    | some t =>
      rw [subSL_cons_match hm, replSL_eq, List.cons_append] at h
      injection h with h1 _
      exact absurd h1.symm ha
    | none =>
      rw [subSL_cons_nomatch hm] at h
      injection h with h1 h2
      exact ⟨z1, by rw [h1], h2⟩

theorem subSL_head_us {b : Char} {z rest : List Char} (hb : b ≠ 'A')
    (h : subSL z = '_' :: b :: rest) : ∃ z1, z = '_' :: z1 ∧ subSL z1 = b :: rest := by
  cases z with
  | nil => rw [subSL_nil] at h; cases h
  | cons c z1 =>
    cases hm : matchSL (c :: z1) with
    | some t =>
      rw [subSL_cons_match hm] at h
      have : ('_' :: 'A' :: "C_SL1500_".toList) ++ subSL t = '_' :: b :: rest := h
      rw [List.cons_append, List.cons_append] at this
      injection this with _ this
      injection this with h2 _
      exact absurd h2.symm hb
    | none =>
      rw [subSL_cons_nomatch hm] at h
      injection h with h1 h2
      exact ⟨z1, by rw [h1], h2⟩

theorem subSL_head_u {z rest : List Char} (h : subSL z = '_' :: rest) :
    ∃ z1, z = '_' :: z1 := by
  cases z with
  | nil => rw [subSL_nil] at h; cases h
  | cons c z1 =>
    cases hm : matchSL (c :: z1) with
    | some t =>
      rcases (matchSL_eq_some _ _).mp hm with ⟨ds, _, _, heq⟩
      rw [show preSL ++ ds ++ '_' :: t = '_' :: ("AC_SL".toList ++ ds ++ '_' :: t) from by simp [preSL]] at heq
      injection heq with h1 h2
      exact ⟨z1, by rw [h1]⟩
    | none =>
      rw [subSL_cons_nomatch hm] at h
      injection h with h1 _
      exact ⟨z1, by rw [h1]⟩

theorem isDigitC_ne_us {d : Char} (hd : isDigitC d = true) : d ≠ '_' := by
  intro h; subst h; exact absurd hd (by decide)

theorem subSL_digits_strip {ds : List Char} (hall : ds.all isDigitC = true) :
    ∀ z rest, subSL z = ds ++ rest → ∃ z1, z = ds ++ z1 ∧ subSL z1 = rest := by
  induction ds with
  | nil => exact fun z rest h => ⟨z, rfl, h⟩
  | cons d ds ih =>
    intro z rest h
    simp only [List.all_cons, Bool.and_eq_true] at hall
    rw [List.cons_append] at h
    rcases subSL_head_ne (isDigitC_ne_us hall.1) h with ⟨z1, hz, h1⟩
    rcases ih hall.2 z1 rest h1 with ⟨z2, hz2, h2⟩
    exact ⟨z2, by rw [hz, hz2]; rfl, h2⟩

theorem matchSL_none_subSL {c : Char} {s : List Char}
    (h : matchSL (c :: s) = none) : matchSL (c :: subSL s) = none := by
  cases hm : matchSL (c :: subSL s) with
  | none => rfl
  | some u =>
    exfalso
    rcases (matchSL_eq_some _ _).mp hm with ⟨ds, hne, hall, heq⟩
    rw [show preSL ++ ds ++ '_' :: u =
        '_' :: 'A' :: 'C' :: '_' :: 'S' :: 'L' :: (ds ++ '_' :: u) from by simp [preSL]] at heq
    injection heq with hc heq
    rcases subSL_head_ne (by decide) heq with ⟨s1, hs1, h1⟩
    rcases subSL_head_ne (by decide) h1 with ⟨s2, hs2, h2⟩
    rcases subSL_head_us (by decide) h2 with ⟨s3, hs3, h3⟩
    rcases subSL_head_ne (by decide) h3 with ⟨s4, hs4, h4⟩
    rcases subSL_head_ne (by decide) h4 with ⟨s5, hs5, h5⟩
    rcases subSL_digits_strip hall s5 ('_' :: u) h5 with ⟨s6, hs6, h6⟩
    rcases subSL_head_u h6 with ⟨s7, hs7⟩
    have hde : c :: s = preSL ++ ds ++ '_' :: s7 := by
      rw [hc, hs1, hs2, hs3, hs4, hs5, hs6, hs7]
      simp [preSL]
    have : matchSL (c :: s) = some s7 :=
      (matchSL_eq_some _ _).mpr ⟨ds, hne, hall, hde⟩
    rw [h] at this
    cases this

theorem subSL_replSL_append (x : List Char) :
    subSL (replSL ++ x) = replSL ++ subSL x := by
  have hm : matchSL (replSL ++ x) = some x := by
    refine (matchSL_eq_some _ _).mpr ⟨"1500".toList, by decide, by decide, ?_⟩
    rfl
  have hsh : replSL ++ x = '_' :: ("AC_SL1500_".toList ++ x) := rfl
  rw [hsh] at hm ⊢
  rw [subSL_cons_match hm]

theorem subSL_idem_aux : ∀ (n : Nat) (s : List Char), s.length ≤ n →
    subSL (subSL s) = subSL s := by
  intro n
  induction n with
  | zero =>
    intro s h
    have hs : s = [] := List.eq_nil_of_length_eq_zero (Nat.le_zero.mp h)
    subst hs; rfl
  | succ n ih =>
    intro s h
    cases s with
    | nil => rfl
    | cons c s =>
      simp only [List.length_cons] at h
      cases hm : matchSL (c :: s) with
      | some t =>
        have hl : t.length < s.length + 1 := by
          have := matchSL_length hm; simpa using this
        rw [subSL_cons_match hm, subSL_replSL_append, ih t (by omega)]
      | none =>
        rw [subSL_cons_nomatch hm, subSL_cons_nomatch (matchSL_none_subSL hm),
          ih s (by omega)]

theorem subSL_idem (s : List Char) : subSL (subSL s) = subSL s :=
  subSL_idem_aux s.length s le_rfl

/-! ### Presence of size tokens -/

/-- True when `re.search(r'_AC_SL\d+_', s)` would find a match, i.e. a size
token occurs anywhere in `s`. -/
def hasMatch : List Char → Bool
  | [] => false
  | c :: s => (matchSL (c :: s)).isSome || hasMatch s

/-- True when a size token preceded by a literal dot, `._AC_SL\d+_`, occurs
anywhere in `s` (the shape actually produced by Amazon image filenames and
required by the scraper's upgrade guard). -/
def hasDotMatch : List Char → Bool
  | [] => false
  | c :: s => (decide (c = '.') && (matchSL s).isSome) || hasDotMatch s

theorem hasMatch_false_subSL {s : List Char} (h : hasMatch s = false) :
    subSL s = s := by
  induction s with
  | nil => rfl
  | cons c s ih =>
    simp only [hasMatch] at h
    cases hm : matchSL (c :: s) with
    | some t => rw [hm] at h; simp at h
    | none =>
      rw [hm] at h
      simp only [Option.isSome_none, Bool.false_or] at h
      rw [subSL_cons_nomatch hm, ih h]

theorem containsL_append_self_left [DecidableEq α] (p r : List α) :
    containsL p (p ++ r) = true := by
  rw [containsL_iff]; exact ⟨[], r, rfl⟩

theorem hasDotMatch_subSL_replSL {s : List Char} (h : hasDotMatch s = true) :
    containsL replSL (subSL s) = true := by
  induction s with
  | nil => cases h
  | cons c s ih =>
    cases hm : matchSL (c :: s) with
    | some t =>
      rw [subSL_cons_match hm]
      exact containsL_append_self_left _ _
    | none =>
      rw [subSL_cons_nomatch hm]
      simp only [hasDotMatch, Bool.or_eq_true, Bool.and_eq_true,
        decide_eq_true_eq, Option.isSome_iff_exists] at h
      rcases h with ⟨hc, t, hmt⟩ | h2
      · cases s with
        | nil => rw [matchSL_nil] at hmt; cases hmt
        | cons d s1 =>
          apply containsL_cons_of
          rw [subSL_cons_match hmt]
          exact containsL_append_self_left _ _
      · exact containsL_cons_of _ _ _ (ih h2)

theorem hasDotMatch_guard {s : List Char} (h : hasDotMatch s = true) :
    containsL "._AC_SL".toList s = true := by
  induction s with
  | nil => cases h
  | cons c s ih =>
    simp only [hasDotMatch, Bool.or_eq_true, Bool.and_eq_true,
      decide_eq_true_eq, Option.isSome_iff_exists] at h
    rcases h with ⟨hc, t, hmt⟩ | h2
    · subst hc
      rcases (matchSL_eq_some _ _).mp hmt with ⟨ds, _, _, heq⟩
      have : containsL "._AC_SL".toList ('.' :: s) =
          (isPreL "._AC_SL".toList ('.' :: s) || containsL "._AC_SL".toList s) := rfl
      rw [this, heq]
      have hp : isPreL "._AC_SL".toList ('.' :: (preSL ++ ds ++ '_' :: t)) = true := by
        have : '.' :: (preSL ++ ds ++ '_' :: t) =
            "._AC_SL".toList ++ (ds ++ '_' :: t) := by simp [preSL]
        rw [this]
        exact isPreL_append_self _ _
      rw [hp, Bool.true_or]
    · exact containsL_cons_of _ _ _ (ih h2)

theorem upgrade_idem (u : List Char) : upgrade (upgrade u) = upgrade u := by
  unfold upgrade
  by_cases g : containsL "._AC_SL".toList u = true
  · rw [if_pos g]
    by_cases g2 : containsL "._AC_SL".toList (subSL u) = true
    · rw [if_pos g2, subSL_idem]
    · rw [if_neg g2]
  · rw [if_neg g, if_neg g]

/-! ### Digit-run abstraction

`collapse` replaces every maximal run of digits by a single `num` token.
The rewrite `subSL` only replaces the digits inside one `_AC_SL<n>_` token
by other digits, so it preserves the collapsed image of a string.  All
exclusion patterns of the scraper are literal substrings, possibly followed
by `\d+`, so their presence is determined by the collapsed image. -/

inductive Tok where
  | ch (c : Char) : Tok
  | num : Tok
deriving DecidableEq

def chMap (p : List Char) : List Tok := p.map Tok.ch

def collapseF : Nat → List Char → List Tok
  | 0, _ => []
  | _ + 1, [] => []
  | n + 1, c :: s =>
    if isDigitC c then Tok.num :: collapseF n (s.dropWhile isDigitC)
    else Tok.ch c :: collapseF n s

def collapse (s : List Char) : List Tok := collapseF s.length s

theorem length_dropWhile_le' (p : Char → Bool) (l : List Char) :
    (l.dropWhile p).length ≤ l.length := by
  induction l with
  | nil => exact le_rfl
  | cons c l ih =>
    rw [List.dropWhile_cons]
    by_cases hc : p c = true
    · rw [if_pos hc]
      exact Nat.le_trans ih (Nat.le_succ _)
    · rw [if_neg hc]

theorem collapseF_eq : ∀ (n m : Nat) (s : List Char), s.length ≤ n → s.length ≤ m →
    collapseF n s = collapseF m s := by
  intro n
  induction n with
  | zero =>
    intro m s hn _
    have hs : s = [] := List.eq_nil_of_length_eq_zero (Nat.le_zero.mp hn)
    subst hs
    cases m <;> rfl
  | succ n ih =>
    intro m s hn hm
    cases s with
    | nil => cases m <;> rfl
    | cons c s =>
      cases m with
      | zero => simp at hm
      | succ m =>
        simp only [List.length_cons] at hn hm
        show (if isDigitC c then Tok.num :: collapseF n (s.dropWhile isDigitC)
              else Tok.ch c :: collapseF n s) =
          (if isDigitC c then Tok.num :: collapseF m (s.dropWhile isDigitC)
              else Tok.ch c :: collapseF m s)
        by_cases hd : isDigitC c = true
        · rw [if_pos hd, if_pos hd,
            ih m (s.dropWhile isDigitC)
              (Nat.le_trans (length_dropWhile_le' _ _) (by omega))
              (Nat.le_trans (length_dropWhile_le' _ _) (by omega))]
        · rw [if_neg hd, if_neg hd, ih m s (by omega) (by omega)]

theorem collapse_cons_digit {c : Char} (hd : isDigitC c = true) (s : List Char) :
    collapse (c :: s) = Tok.num :: collapse (s.dropWhile isDigitC) := by
  show collapseF (s.length + 1) (c :: s) = _
  show (if isDigitC c then Tok.num :: collapseF s.length (s.dropWhile isDigitC)
        else Tok.ch c :: collapseF s.length s) = _
  rw [if_pos hd]
  congr 1
  exact collapseF_eq s.length (s.dropWhile isDigitC).length (s.dropWhile isDigitC)
    (length_dropWhile_le' _ _) le_rfl

theorem collapse_cons_nondigit {c : Char} (hd : isDigitC c = false) (s : List Char) :
    collapse (c :: s) = Tok.ch c :: collapse s := by
  show collapseF (s.length + 1) (c :: s) = _
  show (if isDigitC c then Tok.num :: collapseF s.length (s.dropWhile isDigitC)
        else Tok.ch c :: collapseF s.length s) = _
  rw [if_neg (by rw [hd]; exact Bool.false_ne_true)]
  rfl

/-- Head of the list is not a digit (vacuously true for the empty list). -/
def headND : List Char → Bool
  | [] => true
  | c :: _ => !isDigitC c

theorem dropWhile_all_nil {p : Char → Bool} {ds : List Char} (hall : ds.all p = true) :
    ds.dropWhile p = [] := by
  induction ds with
  | nil => rfl
  | cons d ds ih =>
    simp only [List.all_cons, Bool.and_eq_true] at hall
    simp [List.dropWhile_cons, hall.1, ih hall.2]

theorem dropWhile_append_headND {z : List Char} (hz : headND z = true) :
    ∀ x : List Char, (x ++ z).dropWhile isDigitC = x.dropWhile isDigitC ++ z := by
  intro x
  induction x with
  | nil =>
    cases z with
    | nil => rfl
    | cons c zt =>
      simp only [headND, Bool.not_eq_true'] at hz
      simp [List.dropWhile_cons, hz]
  | cons c x ih =>
    by_cases hd : isDigitC c = true
    · simp only [List.cons_append, List.dropWhile_cons, hd, if_true, ih]
    · simp only [Bool.not_eq_true] at hd
      simp [List.cons_append, List.dropWhile_cons, hd]

theorem headND_dropWhile (w : List Char) : headND (w.dropWhile isDigitC) = true := by
  induction w with
  | nil => rfl
  | cons c w ih =>
    by_cases hd : isDigitC c = true
    · simpa [List.dropWhile_cons, hd] using ih
    · simp only [Bool.not_eq_true] at hd
      simp [List.dropWhile_cons, hd, headND]

theorem collapse_append_headND {z : List Char} (hz : headND z = true) :
    ∀ (n : Nat) (x : List Char), x.length ≤ n →
      collapse (x ++ z) = collapse x ++ collapse z := by
  intro n
  induction n with
  | zero =>
    intro x hx
    have hs : x = [] := List.eq_nil_of_length_eq_zero (Nat.le_zero.mp hx)
    subst hs; rfl
  | succ n ih =>
    intro x hx
    cases x with
    | nil => rfl
    | cons c x =>
      simp only [List.length_cons] at hx
      by_cases hd : isDigitC c = true
      · rw [List.cons_append, collapse_cons_digit hd, collapse_cons_digit hd,
          dropWhile_append_headND hz,
          ih (x.dropWhile isDigitC) (Nat.le_trans (length_dropWhile_le' _ _) (by omega))]
        rfl
      · simp only [Bool.not_eq_true] at hd
        rw [List.cons_append, collapse_cons_nondigit hd, collapse_cons_nondigit hd,
          ih x (by omega)]
        rfl

theorem matchSL_digit_none {c : Char} (hd : isDigitC c = true) (s : List Char) :
    matchSL (c :: s) = none := by
  unfold matchSL
  have hne : ('_' : Char) ≠ c := fun h => isDigitC_ne_us hd h.symm
  have : dropPre preSL (c :: s) = none := by
    show dropPre ('_' :: "AC_SL".toList) (c :: s) = none
    show (if '_' = c then dropPre "AC_SL".toList s else none) = none
    rw [if_neg hne]
  rw [this]
  rfl

theorem subSL_digits_append {ds : List Char} (hall : ds.all isDigitC = true)
    (r : List Char) : subSL (ds ++ r) = ds ++ subSL r := by
  induction ds with
  | nil => rfl
  | cons d ds ih =>
    simp only [List.all_cons, Bool.and_eq_true] at hall
    rw [List.cons_append, subSL_cons_nomatch (matchSL_digit_none hall.1 _), ih hall.2]
    rfl

theorem headND_subSL {r : List Char} (hr : headND r = true) : headND (subSL r) = true := by
  cases r with
  | nil => rfl
  | cons c r1 =>
    cases hm : matchSL (c :: r1) with
    | some t => rw [subSL_cons_match hm]; rfl
    | none => rw [subSL_cons_nomatch hm]; exact hr

theorem dropWhile_digits_headND {ds z : List Char} (hall : ds.all isDigitC = true)
    (hz : headND z = true) : (ds ++ z).dropWhile isDigitC = z := by
  rw [dropWhile_append_headND hz, dropWhile_all_nil hall]
  rfl

theorem collapse_replSL_append (x : List Char) :
    collapse (replSL ++ x) = chMap preSL ++ Tok.num :: Tok.ch '_' :: collapse x := by
  show collapse ('_' :: 'A' :: 'C' :: '_' :: 'S' :: 'L' :: '1' :: '5' :: '0' :: '0' :: '_' :: x) = _
  rw [collapse_cons_nondigit (by decide), collapse_cons_nondigit (by decide),
    collapse_cons_nondigit (by decide), collapse_cons_nondigit (by decide),
    collapse_cons_nondigit (by decide), collapse_cons_nondigit (by decide),
    collapse_cons_digit (by decide)]
  have hdw : ('5' :: '0' :: '0' :: '_' :: x).dropWhile isDigitC = '_' :: x := by
    rw [List.dropWhile_cons, if_pos (by decide), List.dropWhile_cons, if_pos (by decide),
      List.dropWhile_cons, if_pos (by decide), List.dropWhile_cons, if_neg (by decide)]
  rw [hdw, collapse_cons_nondigit (by decide)]
  rfl

theorem collapse_preSL_append (y : List Char) :
    collapse (preSL ++ y) = chMap preSL ++ collapse y := by
  show collapse ('_' :: 'A' :: 'C' :: '_' :: 'S' :: 'L' :: y) = _
  rw [collapse_cons_nondigit (by decide), collapse_cons_nondigit (by decide),
    collapse_cons_nondigit (by decide), collapse_cons_nondigit (by decide),
    collapse_cons_nondigit (by decide), collapse_cons_nondigit (by decide)]
  rfl

theorem collapse_digits_append {ds : List Char} (hne : ds ≠ [])
    (hall : ds.all isDigitC = true) (t : List Char) :
    collapse (ds ++ '_' :: t) = Tok.num :: Tok.ch '_' :: collapse t := by
  cases ds with
  | nil => exact absurd rfl hne
  | cons d ds1 =>
    simp only [List.all_cons, Bool.and_eq_true] at hall
    rw [List.cons_append, collapse_cons_digit hall.1,
      dropWhile_all_append hall.2 (by decide), collapse_cons_nondigit (by decide)]

theorem collapse_subSL : ∀ (n : Nat) (s : List Char), s.length ≤ n →
    collapse (subSL s) = collapse s := by
  intro n
  induction n with
  | zero =>
    intro s hn
    have hs : s = [] := List.eq_nil_of_length_eq_zero (Nat.le_zero.mp hn)
    subst hs; rfl
  | succ n ih =>
    intro s hn
    cases s with
    | nil => rfl
    | cons c s =>
      simp only [List.length_cons] at hn
      cases hm : matchSL (c :: s) with
      | some t =>
        rcases (matchSL_eq_some _ _).mp hm with ⟨ds, hne, hall, heq⟩
        have hlt : t.length < s.length + 1 := by
          have := matchSL_length hm; simpa using this
        rw [subSL_cons_match hm, collapse_replSL_append, ih t (by omega), heq,
          List.append_assoc, collapse_preSL_append, collapse_digits_append hne hall]
      | none =>
        rw [subSL_cons_nomatch hm]
        by_cases hd : isDigitC c = true
        · rw [collapse_cons_digit hd, collapse_cons_digit hd]
          have hsplit : s = s.takeWhile isDigitC ++ s.dropWhile isDigitC :=
            (@List.takeWhile_append_dropWhile _ isDigitC s).symm
          have hall : (s.takeWhile isDigitC).all isDigitC = true := by
            rw [List.all_eq_true]
            intro a ha
            exact List.mem_takeWhile_imp ha
          have hnd : headND (s.dropWhile isDigitC) = true := headND_dropWhile s
          have h1 : subSL s = s.takeWhile isDigitC ++ subSL (s.dropWhile isDigitC) := by
            conv_lhs => rw [hsplit]
            exact subSL_digits_append hall _
          rw [h1, dropWhile_digits_headND hall (headND_subSL hnd),
            ih (s.dropWhile isDigitC)
              (Nat.le_trans (length_dropWhile_le' _ _) (by omega))]
        · simp only [Bool.not_eq_true] at hd
          rw [collapse_cons_nondigit hd, collapse_cons_nondigit hd, ih s (by omega)]

/-! ### Exclusion patterns through the collapse abstraction -/

/-- Pattern head test for a literal followed by `\d+`: `s` starts with the
literal `p` immediately followed by a digit. -/
def isPreD (p : List Char) (s : List Char) : Bool :=
  match dropPre p s with
  | some (d :: _) => isDigitC d
  | _ => false

/-- `re.search` of a pattern `p\d+` (literal `p` then one or more digits)
anywhere in `s`. -/
def containsLD (p : List Char) : List Char → Bool
  | [] => false
  | b :: s => isPreD p (b :: s) || containsLD p s

/-- All characters of the pattern are non-digits. -/
def ndAll (p : List Char) : Bool := p.all fun c => !isDigitC c

theorem ndAll_cons {a : Char} {p : List Char} (hp : ndAll (a :: p) = true) :
    isDigitC a = false ∧ ndAll p = true := by
  have h : ((!isDigitC a) && ndAll p) = true := hp
  simp only [Bool.and_eq_true, Bool.not_eq_true'] at h
  exact h

theorem isPreL_collapse {p : List Char} (hp : ndAll p = true) :
    ∀ z, isPreL (chMap p) (collapse z) = isPreL p z := by
  induction p with
  | nil => intro z; rfl
  | cons a p ih =>
    intro z
    rcases ndAll_cons hp with ⟨hpa, hp2⟩
    cases z with
    | nil => rfl
    | cons c z =>
      by_cases hd : isDigitC c = true
      · rw [collapse_cons_digit hd]
        have hac : decide (a = c) = false := by
          simp only [decide_eq_false_iff_not]
          intro h; rw [h, hd] at hpa; cases hpa
        show (decide (Tok.ch a = Tok.num) &&
            isPreL (chMap p) (collapse (z.dropWhile isDigitC))) =
          (decide (a = c) && isPreL p z)
        rw [hac, show decide (Tok.ch a = Tok.num) = false from by simp,
          Bool.false_and, Bool.false_and]
      · simp only [Bool.not_eq_true] at hd
        rw [collapse_cons_nondigit hd]
        show (decide (Tok.ch a = Tok.ch c) && isPreL (chMap p) (collapse z)) =
          (decide (a = c) && isPreL p z)
        have h3 : decide (Tok.ch a = Tok.ch c) = decide (a = c) := by
          by_cases h : a = c
          · subst h; simp
          · simp [h]
        rw [h3, ih hp2 z]

theorem containsL_nil_pat {p : List Char} (hne : p ≠ []) :
    containsL p ([] : List Char) = false := by
  cases p with
  | nil => exact absurd rfl hne
  | cons a p => rfl

theorem containsTok_nil_pat {q : List Tok} (hne : q ≠ []) :
    containsL q ([] : List Tok) = false := by
  cases q with
  | nil => exact absurd rfl hne
  | cons a q => rfl

theorem chMap_ne_nil {p : List Char} (hne : p ≠ []) : chMap p ≠ [] := by
  cases p with
  | nil => exact absurd rfl hne
  | cons a p => simp [chMap]

theorem collapse_nil : collapse ([] : List Char) = [] := rfl

theorem containsL_digits_skip {a : Char} {p : List Char} (hpa : isDigitC a = false) :
    ∀ w, containsL (a :: p) w = containsL (a :: p) (w.dropWhile isDigitC) := by
  intro w
  induction w with
  | nil => rfl
  | cons e w ih =>
    by_cases he : isDigitC e = true
    · have hae : decide (a = e) = false := by
        simp only [decide_eq_false_iff_not]
        intro h; rw [h, he] at hpa; cases hpa
      have h1 : containsL (a :: p) (e :: w) = containsL (a :: p) w := by
        show (isPreL (a :: p) (e :: w) || containsL (a :: p) w) = _
        rw [show isPreL (a :: p) (e :: w) = (decide (a = e) && isPreL p w) from rfl,
          hae, Bool.false_and, Bool.false_or]
      rw [h1, List.dropWhile_cons, if_pos he, ih]
    · simp only [Bool.not_eq_true] at he
      rw [List.dropWhile_cons, if_neg (by rw [he]; exact Bool.false_ne_true)]

theorem containsL_collapse {p : List Char} (hne : p ≠ []) (hp : ndAll p = true) :
    ∀ (n : Nat) (z : List Char), z.length ≤ n →
      containsL (chMap p) (collapse z) = containsL p z := by
  intro n
  induction n with
  | zero =>
    intro z hz
    have h0 : z = [] := List.eq_nil_of_length_eq_zero (Nat.le_zero.mp hz)
    subst h0
    rw [collapse_nil, containsL_nil_pat hne, containsTok_nil_pat (chMap_ne_nil hne)]
  | succ n ih =>
    intro z hz
    cases z with
    | nil => rw [collapse_nil, containsL_nil_pat hne, containsTok_nil_pat (chMap_ne_nil hne)]
    | cons c z =>
      simp only [List.length_cons] at hz
      by_cases hd : isDigitC c = true
      · rw [collapse_cons_digit hd]
        cases p with
        | nil => exact absurd rfl hne
        | cons a p1 =>
          rcases ndAll_cons hp with ⟨hpa, _⟩
          have h1 : isPreL (chMap (a :: p1)) (Tok.num :: collapse (z.dropWhile isDigitC)) = false := by
            show (decide (Tok.ch a = Tok.num) && _) = false
            rw [show decide (Tok.ch a = Tok.num) = false from by simp, Bool.false_and]
          show (isPreL (chMap (a :: p1)) (Tok.num :: collapse (z.dropWhile isDigitC)) ||
              containsL (chMap (a :: p1)) (collapse (z.dropWhile isDigitC))) = _
          rw [h1, Bool.false_or,
            ih (z.dropWhile isDigitC)
              (Nat.le_trans (length_dropWhile_le' _ _) (by omega)),
            ← containsL_digits_skip hpa]
          have h2 : isPreL (a :: p1) (c :: z) = false := by
            show (decide (a = c) && _) = false
            have hac : decide (a = c) = false := by
              simp only [decide_eq_false_iff_not]
              intro h; rw [h, hd] at hpa; cases hpa
            rw [hac, Bool.false_and]
          show containsL (a :: p1) z = containsL (a :: p1) (c :: z)
          rw [show containsL (a :: p1) (c :: z) =
            (isPreL (a :: p1) (c :: z) || containsL (a :: p1) z) from rfl, h2, Bool.false_or]
      · simp only [Bool.not_eq_true] at hd
        rw [collapse_cons_nondigit hd]
        show (isPreL (chMap p) (Tok.ch c :: collapse z) || containsL (chMap p) (collapse z)) = _
        rw [← collapse_cons_nondigit hd, isPreL_collapse hp, ih z (by omega)]
        rfl

theorem isPreD_collapse {p : List Char} (hp : ndAll p = true) :
    ∀ z, isPreD p z = isPreL (chMap p ++ [Tok.num]) (collapse z) := by
  induction p with
  | nil =>
    intro z
    cases z with
    | nil => rfl
    | cons d w =>
      by_cases hd : isDigitC d = true
      · rw [collapse_cons_digit hd]
        show isDigitC d = (decide (Tok.num = Tok.num) && isPreL [] _)
        rw [hd]; rfl
      · simp only [Bool.not_eq_true] at hd
        rw [collapse_cons_nondigit hd]
        show isDigitC d = (decide (Tok.num = Tok.ch d) && isPreL [] _)
        rw [hd, show decide (Tok.num = Tok.ch d) = false from by simp, Bool.false_and]
  | cons a p ih =>
    intro z
    rcases ndAll_cons hp with ⟨hpa, hp2⟩
    cases z with
    | nil => rfl
    | cons c w =>
      by_cases hd : isDigitC c = true
      · rw [collapse_cons_digit hd]
        have hac : ¬(a = c) := by
          intro h; rw [h, hd] at hpa; cases hpa
        show (match (if a = c then dropPre p w else none) with
              | some (d :: _) => isDigitC d
              | _ => false) =
          (decide (Tok.ch a = Tok.num) && _)
        rw [if_neg hac, show decide (Tok.ch a = Tok.num) = false from by simp, Bool.false_and]
      · simp only [Bool.not_eq_true] at hd
        rw [collapse_cons_nondigit hd]
        by_cases hac : a = c
        · subst hac
          show (match (if a = a then dropPre p w else none) with
                | some (d :: _) => isDigitC d
                | _ => false) =
            (decide (Tok.ch a = Tok.ch a) && isPreL (chMap p ++ [Tok.num]) (collapse w))
          rw [if_pos rfl, show decide (Tok.ch a = Tok.ch a) = true from by simp, Bool.true_and]
          exact ih hp2 w
        · show (match (if a = c then dropPre p w else none) with
                | some (d :: _) => isDigitC d
                | _ => false) =
            (decide (Tok.ch a = Tok.ch c) && _)
          rw [if_neg hac, show decide (Tok.ch a = Tok.ch c) = false from by simp [hac],
            Bool.false_and]

theorem containsLD_digits_skip {a : Char} {p : List Char} (hpa : isDigitC a = false) :
    ∀ w, containsLD (a :: p) w = containsLD (a :: p) (w.dropWhile isDigitC) := by
  intro w
  induction w with
  | nil => rfl
  | cons e w ih =>
    by_cases he : isDigitC e = true
    · have hae : ¬(a = e) := by
        intro h; rw [h, he] at hpa; cases hpa
      rw [List.dropWhile_cons, if_pos he, ← ih]
      show (isPreD (a :: p) (e :: w) || containsLD (a :: p) w) = containsLD (a :: p) w
      have h1 : isPreD (a :: p) (e :: w) = false := by
        show (match (if a = e then dropPre p w else none) with
              | some (d :: _) => isDigitC d
              | _ => false) = false
        rw [if_neg hae]
      rw [h1, Bool.false_or]
    · simp only [Bool.not_eq_true] at he
      rw [List.dropWhile_cons, if_neg (by rw [he]; exact Bool.false_ne_true)]

theorem containsLD_collapse {p : List Char} (hne : p ≠ []) (hp : ndAll p = true) :
    ∀ (n : Nat) (z : List Char), z.length ≤ n →
      containsLD p z = containsL (chMap p ++ [Tok.num]) (collapse z) := by
  intro n
  induction n with
  | zero =>
    intro z hz
    have h0 : z = [] := List.eq_nil_of_length_eq_zero (Nat.le_zero.mp hz)
    subst h0
    rw [collapse_nil, containsTok_nil_pat (by cases p with
      | nil => exact absurd rfl hne
      | cons a p => simp [chMap])]
    rfl
  | succ n ih =>
    intro z hz
    cases z with
    | nil =>
      rw [collapse_nil, containsTok_nil_pat (by cases p with
        | nil => exact absurd rfl hne
        | cons a p => simp [chMap])]
      rfl
    | cons c z =>
      simp only [List.length_cons] at hz
      cases p with
      | nil => exact absurd rfl hne
      | cons a p1 =>
        rcases ndAll_cons hp with ⟨hpa, _⟩
        by_cases hd : isDigitC c = true
        · rw [collapse_cons_digit hd]
          have h1 : isPreL (chMap (a :: p1) ++ [Tok.num])
              (Tok.num :: collapse (z.dropWhile isDigitC)) = false := by
            show (decide (Tok.ch a = Tok.num) && _) = false
            rw [show decide (Tok.ch a = Tok.num) = false from by simp, Bool.false_and]
          have h2 : containsL (chMap (a :: p1) ++ [Tok.num])
              (Tok.num :: collapse (z.dropWhile isDigitC)) =
              containsL (chMap (a :: p1) ++ [Tok.num]) (collapse (z.dropWhile isDigitC)) := by
            show (isPreL (chMap (a :: p1) ++ [Tok.num])
                (Tok.num :: collapse (z.dropWhile isDigitC)) || _) = _
            rw [h1, Bool.false_or]
          rw [h2,
            ← ih (z.dropWhile isDigitC)
              (Nat.le_trans (length_dropWhile_le' _ _) (by omega)),
            ← containsLD_digits_skip hpa]
          have hac : ¬(a = c) := by
            intro h; rw [h, hd] at hpa; cases hpa
          have h3 : isPreD (a :: p1) (c :: z) = false := by
            show (match (if a = c then dropPre p1 z else none) with
                  | some (d :: _) => isDigitC d
                  | _ => false) = false
            rw [if_neg hac]
          show (isPreD (a :: p1) (c :: z) || containsLD (a :: p1) z) = containsLD (a :: p1) z
          rw [h3, Bool.false_or]
        · simp only [Bool.not_eq_true] at hd
          rw [collapse_cons_nondigit hd]
          show _ = (isPreL (chMap (a :: p1) ++ [Tok.num]) (Tok.ch c :: collapse z) ||
              containsL (chMap (a :: p1) ++ [Tok.num]) (collapse z))
          rw [← collapse_cons_nondigit hd, ← isPreD_collapse hp, ← ih z (by omega)]
          rfl

/-! ### Lowercasing commutes with the collapse abstraction -/

def lowT : Tok → Tok
  | Tok.ch c => Tok.ch (lowC c)
  | Tok.num => Tok.num

theorem dropWhile_map_lowC : ∀ s : List Char,
    (s.map lowC).dropWhile isDigitC = (s.dropWhile isDigitC).map lowC := by
  intro s
  induction s with
  | nil => rfl
  | cons c s ih =>
    by_cases hd : isDigitC c = true
    · rw [List.map_cons, List.dropWhile_cons, if_pos (by rw [isDigitC_lowC]; exact hd),
        List.dropWhile_cons, if_pos hd, ih]
    · simp only [Bool.not_eq_true] at hd
      rw [List.map_cons, List.dropWhile_cons,
        if_neg (by rw [isDigitC_lowC, hd]; exact Bool.false_ne_true),
        List.dropWhile_cons, if_neg (by rw [hd]; exact Bool.false_ne_true), List.map_cons]

theorem collapse_map_lowC : ∀ (n : Nat) (s : List Char), s.length ≤ n →
    collapse (s.map lowC) = (collapse s).map lowT := by
  intro n
  induction n with
  | zero =>
    intro s h
    have hs : s = [] := List.eq_nil_of_length_eq_zero (Nat.le_zero.mp h)
    subst hs; rfl
  | succ n ih =>
    intro s h
    cases s with
    | nil => rfl
    | cons c s =>
      simp only [List.length_cons] at h
      by_cases hd : isDigitC c = true
      · rw [List.map_cons, collapse_cons_digit (by rw [isDigitC_lowC]; exact hd),
          collapse_cons_digit hd, dropWhile_map_lowC,
          ih (s.dropWhile isDigitC) (Nat.le_trans (length_dropWhile_le' _ _) (by omega))]
        rfl
      · simp only [Bool.not_eq_true] at hd
        rw [List.map_cons, collapse_cons_nondigit (by rw [isDigitC_lowC]; exact hd),
          collapse_cons_nondigit hd, ih s (by omega)]
        rfl

/-! ### The exclusion vocabulary (amazon_product_scraper.py lines 251-277) -/

/-- The plain-substring exclusion patterns, lowercased (the code applies
them with `re.IGNORECASE`): `/related/`, `/recommended/`, `/sponsored/`,
`/similar/`, `/frequently/`, `/customer/`, `/review/`, `community-reviews`,
`aplus-media-library`, `community-customer-media`, `__AC_UC`,
`related-products`, `recommended-products`, `sponsored-products`,
`also-viewed`, `frequently-bought`. -/
def exLits : List (List Char) :=
  ["/related/".toList, "/recommended/".toList, "/sponsored/".toList,
   "/similar/".toList, "/frequently/".toList, "/customer/".toList,
   "/review/".toList, "community-reviews".toList, "aplus-media-library".toList,
   "community-customer-media".toList, "__ac_uc".toList, "related-products".toList,
   "recommended-products".toList, "sponsored-products".toList,
   "also-viewed".toList, "frequently-bought".toList]

/-- The literal-then-digits exclusion patterns, lowercased: `_UC\d+`,
`__CR\d+`, `__PT\d+`, `__AC_SR\d+`, `__AC_UF\d+`, `__AC_SY\d+`,
`__AC_SX\d+`, `__AC_SZ\d+`, `__AC_SS\d+`. -/
def exLitDs : List (List Char) :=
  ["_uc".toList, "__cr".toList, "__pt".toList, "__ac_sr".toList,
   "__ac_uf".toList, "__ac_sy".toList, "__ac_sx".toList, "__ac_sz".toList,
   "__ac_ss".toList]

/-- The scraper's exclusion test,
`any(re.search(pattern, url, re.IGNORECASE) for pattern in excluded_patterns)`
(line 304). -/
def isExcluded (u : List Char) : Bool :=
  exLits.any (fun p => containsL p (u.map lowC)) ||
    exLitDs.any (fun p => containsLD p (u.map lowC))

theorem collapse_lowm_subSL (u : List Char) :
    collapse ((subSL u).map lowC) = collapse (u.map lowC) := by
  rw [collapse_map_lowC (subSL u).length (subSL u) le_rfl,
    collapse_map_lowC u.length u le_rfl, collapse_subSL u.length u le_rfl]

theorem containsL_lowm_subSL {p : List Char} (hne : p ≠ []) (hp : ndAll p = true)
    (u : List Char) :
    containsL p ((subSL u).map lowC) = containsL p (u.map lowC) := by
  rw [← containsL_collapse hne hp ((subSL u).map lowC).length _ le_rfl,
    ← containsL_collapse hne hp (u.map lowC).length _ le_rfl,
    collapse_lowm_subSL]

theorem containsLD_lowm_subSL {p : List Char} (hne : p ≠ []) (hp : ndAll p = true)
    (u : List Char) :
    containsLD p ((subSL u).map lowC) = containsLD p (u.map lowC) := by
  rw [containsLD_collapse hne hp ((subSL u).map lowC).length _ le_rfl,
    containsLD_collapse hne hp (u.map lowC).length _ le_rfl,
    collapse_lowm_subSL]

theorem any_containsL_subSL : ∀ L : List (List Char),
    (L.all fun p => !decide (p = []) && ndAll p) = true → ∀ u,
    L.any (fun p => containsL p ((subSL u).map lowC)) =
      L.any (fun p => containsL p (u.map lowC)) := by
  intro L hL u
  induction L with
  | nil => rfl
  | cons p L ih =>
    simp only [List.all_cons, Bool.and_eq_true, Bool.not_eq_true',
      decide_eq_false_iff_not] at hL
    simp only [List.any_cons]
    rw [containsL_lowm_subSL hL.1.1 hL.1.2 u, ih hL.2]

theorem any_containsLD_subSL : ∀ L : List (List Char),
    (L.all fun p => !decide (p = []) && ndAll p) = true → ∀ u,
    L.any (fun p => containsLD p ((subSL u).map lowC)) =
      L.any (fun p => containsLD p (u.map lowC)) := by
  intro L hL u
  induction L with
  | nil => rfl
  | cons p L ih =>
    simp only [List.all_cons, Bool.and_eq_true, Bool.not_eq_true',
      decide_eq_false_iff_not] at hL
    simp only [List.any_cons]
    rw [containsLD_lowm_subSL hL.1.1 hL.1.2 u, ih hL.2]

/-- The size upgrade cannot create or destroy an exclusion-pattern match:
it only rewrites the digits inside a size token to other digits. -/
theorem isExcluded_subSL (u : List Char) : isExcluded (subSL u) = isExcluded u := by
  unfold isExcluded
  rw [any_containsL_subSL exLits (by decide) u, any_containsLD_subSL exLitDs (by decide) u]

theorem isExcluded_upgrade (u : List Char) : isExcluded (upgrade u) = isExcluded u := by
  unfold upgrade
  by_cases g : containsL "._AC_SL".toList u = true
  · rw [if_pos g, isExcluded_subSL]
  · rw [if_neg g]

/-! ### URL normalisation inside the acceptance filter (lines 290-321) -/

/-- Python regex class whitespace, as used in `[^",\s}]`. -/
def isSpaceC (c : Char) : Bool :=
  c == ' ' || c == '\t' || c == '\n' || c == '\r' || c.toNat == 11 || c.toNat == 12

/-- Characters allowed inside the URL body by the regex
`(https://[^",\s}]+\.jpg)`. -/
def allowedC (c : Char) : Bool :=
  !(c == '"' || c == ',' || c == '}' || isSpaceC c)

/-- Given the greedy character run after `https://`, find the rightmost
occurrence of `.jpg` starting at index at least one, returning the
characters before it (the backtracking of `[^",\s}]+\.jpg`). -/
def jpgCut : List Char → Option (List Char)
  | [] => none
  | c :: rest =>
    match jpgCut rest with
    | some p => some (c :: p)
    | none => if isPreL ".jpg".toList rest then some [c] else none

/-- Attempt of the regex `(https://[^",\s}]+\.jpg)` at the head of `s`. -/
def startHttpsJpg (s : List Char) : Option (List Char) :=
  match dropPre "https://".toList s with
  | none => none
  | some r =>
    match jpgCut (r.takeWhile allowedC) with
    | none => none
    | some p => some ("https://".toList ++ p ++ ".jpg".toList)

/-- `re.search(r'(https://[^",\s}]+\.jpg)', url)`, leftmost match (line 293). -/
def searchHttpsJpg : List Char → Option (List Char)
  | [] => none
  | c :: s =>
    match startHttpsJpg (c :: s) with
    | some m => some m
    | none => searchHttpsJpg s

/-- One-sided character strip; both sides via reverse. -/
def stripEnds (p : Char → Bool) (s : List Char) : List Char :=
  ((s.dropWhile p).reverse.dropWhile p).reverse

/-- `url.strip('"').strip()` (lines 297 and 301). -/
def stripQS (s : List Char) : List Char :=
  stripEnds isSpaceC (stripEnds (fun c => c == '"') s)

/-- `re.sub(r'["\',].*$', '', url)` (line 300): delete from the first
quote, apostrophe or comma to the end.  Without `re.DOTALL`, `.` does not
match a newline and `$` matches only at the end of the string or before a
final newline, so a punctuation position matches only when no newline
follows it other than a final one (which survives the deletion). -/
def cutPunct (punct : Char → Bool) : List Char → List Char
  | [] => []
  | c :: s =>
    if punct c then
      if !(s.contains '\n') then []
      else if (match s.getLast? with | some e => e == '\n' | none => false)
          && !(s.dropLast.contains '\n') then ['\n']
      else c :: cutPunct punct s
    else c :: cutPunct punct s

def punct3 (c : Char) : Bool := c == '"' || c == '\'' || c == ','

def punct4 (c : Char) : Bool := c == '"' || c == '\'' || c == ',' || c == '}'

/-- URL normalisation of one raw candidate (lines 291-301): take the first
`https://...jpg` match if any, else strip quotes and whitespace; then cut
trailing junk from the first quote/apostrophe/comma and strip again. -/
def normalizeUrl (u : List Char) : List Char :=
  stripQS (cutPunct punct3 (match searchHttpsJpg u with
    | some m => m
    | none => stripQS u))

/-- `re.search(r'\.media-amazon\.com/images/I/', url, re.IGNORECASE)` (line 308). -/
def mediaAmazonOk (u : List Char) : Bool :=
  containsL ".media-amazon.com/images/i/".toList (u.map lowC)

/-- The four accepted size-suffix patterns (lines 281-286, applied with
`re.IGNORECASE` at line 313). -/
def isMainProductImage (u : List Char) : Bool :=
  containsL "._ac_sl1500_.jpg".toList (u.map lowC) ||
  containsL "._ac_sl1000_.jpg".toList (u.map lowC) ||
  containsL "._ac_sl750_.jpg".toList (u.map lowC) ||
  containsL "._ac_sl500_.jpg".toList (u.map lowC)

/-- Acceptance of one raw candidate: the body of the `for url in image_urls`
loop (lines 290-321).  Normalise, reject excluded URLs, require the
product-image CDN path, the https scheme, a `.jpg` occurrence and a
standard size suffix, reject URLs still containing JSON artifacts, then
upgrade the resolution. -/
def cleanCandidate (u0 : List Char) : Option (List Char) :=
  if isExcluded (normalizeUrl u0) then none
  else if !(mediaAmazonOk (normalizeUrl u0)) then none
  else if isPreL "https://".toList (normalizeUrl u0) &&
      containsL ".jpg".toList ((normalizeUrl u0).map lowC) &&
      isMainProductImage (normalizeUrl u0) then
    if !((normalizeUrl u0).contains '"' || (normalizeUrl u0).contains '{' ||
        (normalizeUrl u0).contains '}') then
      some (upgrade (normalizeUrl u0))
    else none
  else none

/-- Insertion-ordered deduplication, modelling accumulation of accepted
URLs into the `clean_urls` set. -/
def dedupAux [DecidableEq α] : List α → List α → List α
  | _, [] => []
  | seen, a :: l =>
    if a ∈ seen then dedupAux seen l else a :: dedupAux (a :: seen) l

def dedupKF [DecidableEq α] (l : List α) : List α := dedupAux [] l

/-- `get_resolution_priority` (lines 326-337): case-sensitive substring
tests, lower is better. -/
def resolutionPriority (u : List Char) : Nat :=
  if containsL "_AC_SL1500_".toList u then 0
  else if containsL "_AC_SL1000_".toList u then 1
  else if containsL "_AC_SL750_".toList u then 2
  else if containsL "_AC_SL500_".toList u then 3
  else 999

/-- `clean_urls_list.sort(key=get_resolution_priority)` (line 339): the
sort is stable and the key only takes the values 0, 1, 2, 3 and 999, so
the result is the concatenation of the equal-key sublists in their
original order. -/
def sortByPriority (l : List (List Char)) : List (List Char) :=
  l.filter (fun u => resolutionPriority u == 0) ++
  l.filter (fun u => resolutionPriority u == 1) ++
  l.filter (fun u => resolutionPriority u == 2) ++
  l.filter (fun u => resolutionPriority u == 3) ++
  l.filter (fun u => resolutionPriority u == 999)

/-- The acceptance filter, ranking and truncation applied to the union of
all tier candidates (lines 249-345): acceptance loop over the candidate
set, stable sort by resolution priority, cut to `max_images`. -/
def cleanPipeline (cands : List (List Char)) (maxImages : Nat) : List (List Char) :=
  (sortByPriority (dedupKF (cands.filterMap cleanCandidate))).take maxImages

theorem mem_dedupAux [DecidableEq α] :
    ∀ (l seen : List α) (x : α), x ∈ dedupAux seen l → x ∈ l := by
  intro l
  induction l with
  | nil => intro seen x h; cases h
  | cons a l ih =>
    intro seen x h
    unfold dedupAux at h
    by_cases ha : a ∈ seen
    · rw [if_pos ha] at h
      exact List.mem_cons_of_mem _ (ih seen x h)
    · rw [if_neg ha] at h
      rcases List.mem_cons.mp h with h1 | h2
      · exact h1 ▸ List.mem_cons_self _ _
      · exact List.mem_cons_of_mem _ (ih _ x h2)

theorem mem_sortByPriority {l : List (List Char)} {u : List Char}
    (h : u ∈ sortByPriority l) : u ∈ l := by
  unfold sortByPriority at h
  simp only [List.mem_append, List.mem_filter] at h
  rcases h with ((((h | h) | h) | h) | h) <;> exact h.1

theorem cleanCandidate_some {u0 u : List Char} (h : cleanCandidate u0 = some u) :
    isExcluded (normalizeUrl u0) = false ∧ u = upgrade (normalizeUrl u0) := by
  unfold cleanCandidate at h
  split at h
  · cases h
  · rename_i hex
    split at h
    · cases h
    · split at h
      · split at h
        · injection h with h
          exact ⟨Bool.not_eq_true _ ▸ Bool.of_not_eq_true hex, h.symm⟩
        · cases h
      · cases h

/-- Every URL returned by the acceptance filter is free of exclusion
patterns: the exclusion test is applied to the normalised URL and the
subsequent resolution upgrade cannot introduce an exclusion pattern. -/
theorem cleanPipeline_not_excluded {cands : List (List Char)} {maxImages : Nat}
    {u : List Char} (h : u ∈ cleanPipeline cands maxImages) :
    isExcluded u = false := by
  unfold cleanPipeline at h
  have h1 : u ∈ sortByPriority (dedupKF (cands.filterMap cleanCandidate)) :=
    List.take_subset _ _ h
  have h2 : u ∈ dedupKF (cands.filterMap cleanCandidate) := mem_sortByPriority h1
  have h3 : u ∈ cands.filterMap cleanCandidate := mem_dedupAux _ _ _ h2
  rcases List.mem_filterMap.mp h3 with ⟨u0, _, hc⟩
  rcases cleanCandidate_some hc with ⟨hex, rfl⟩
  rw [isExcluded_upgrade, hex]

/-! ### The downloader `download_file` (amazon_product_scraper.py lines 406-454) -/

/-- Outcome of one network attempt inside the retry loop: either `requests`
raised (connection error / timeout), or a response arrived with an HTTP
status, a `content-length` header value (0 when the header is absent) and a
body. -/
inductive Attempt where
  | exc : Attempt
  | resp (status : Nat) (contentLength : Nat) (content : List Nat) : Attempt
deriving DecidableEq

/-- Result of `download_file`: the boolean return value, the updated
`downloaded_hashes` set, the bytes written to disk (if any), the number of
attempts performed and the exponential-backoff delays slept (in seconds). -/
structure DlOut where
  success : Bool
  hashes : List Nat
  written : Option (List Nat)
  attemptsUsed : Nat
  backoffs : List Nat
deriving DecidableEq

/-- The retry loop of `download_file`, at attempt index `i` with `fuel`
attempts remaining.  A `RequestException` — raised by the request itself or
by `raise_for_status()` on any status of 400 or more — is caught and
retried after a `2 ** attempt` backoff (no backoff after the final
attempt).  A response with a zero `content-length` header, or whose body
hash is already in `downloaded_hashes`, returns `False` immediately; an
accepted body records its MD5 hash in the set and is written to disk. -/
def downloadGo (md5 : List Nat → Nat) (net : Nat → Attempt) (hashes : List Nat) :
    Nat → Nat → DlOut
  | _, 0 => ⟨false, hashes, none, 0, []⟩
  | i, n + 1 =>
    match net i with
    | Attempt.exc =>
      let rest := downloadGo md5 net hashes (i + 1) n
      ⟨rest.success, rest.hashes, rest.written, rest.attemptsUsed + 1,
        if 0 < n then 2 ^ i :: rest.backoffs else rest.backoffs⟩
    | Attempt.resp st len c =>
      if 400 ≤ st then
        let rest := downloadGo md5 net hashes (i + 1) n
        ⟨rest.success, rest.hashes, rest.written, rest.attemptsUsed + 1,
          if 0 < n then 2 ^ i :: rest.backoffs else rest.backoffs⟩
      else if len == 0 then ⟨false, hashes, none, 1, []⟩
      else if hashes.contains (md5 c) then ⟨false, hashes, none, 1, []⟩
      else ⟨true, md5 c :: hashes, some c, 1, []⟩

/-- `download_file(url, filename, max_retries)` as a state transformer on
the run-scoped `downloaded_hashes` set. -/
def downloadFile (md5 : List Nat → Nat) (net : Nat → Attempt) (maxRetries : Nat)
    (hashes : List Nat) : DlOut :=
  downloadGo md5 net hashes 0 maxRetries

/-- Attempts that raise `requests.RequestException`: a network error or
timeout, or any HTTP status of 400 and above (via `raise_for_status`).
These — and only these — are caught and retried by the loop. -/
def isExc : Attempt → Bool
  | Attempt.exc => true
  | Attempt.resp st _ _ => decide (400 ≤ st)

/-- The first response the retry loop accepts for processing: the first
attempt that raises no exception. -/
def firstGood (net : Nat → Attempt) : Nat → Nat → Option (Nat × List Nat)
  | _, 0 => none
  | i, n + 1 =>
    match net i with
    | Attempt.exc => firstGood net (i + 1) n
    | Attempt.resp st len c =>
      if 400 ≤ st then firstGood net (i + 1) n else some (len, c)

/-- Abbreviation for the retry bookkeeping of one failed attempt. -/
def retryOut (rest : DlOut) (i n : Nat) : DlOut :=
  ⟨rest.success, rest.hashes, rest.written, rest.attemptsUsed + 1,
    if 0 < n then 2 ^ i :: rest.backoffs else rest.backoffs⟩

theorem downloadGo_exc {md5 : List Nat → Nat} {net : Nat → Attempt}
    {hashes : List Nat} {i n : Nat} (hni : net i = Attempt.exc) :
    downloadGo md5 net hashes i (n + 1) =
      retryOut (downloadGo md5 net hashes (i + 1) n) i n := by
  show ((match net i with
    | Attempt.exc =>
      let rest := downloadGo md5 net hashes (i + 1) n
      ⟨rest.success, rest.hashes, rest.written, rest.attemptsUsed + 1,
        if 0 < n then 2 ^ i :: rest.backoffs else rest.backoffs⟩
    | Attempt.resp st len c =>
      if 400 ≤ st then
        let rest := downloadGo md5 net hashes (i + 1) n
        ⟨rest.success, rest.hashes, rest.written, rest.attemptsUsed + 1,
          if 0 < n then 2 ^ i :: rest.backoffs else rest.backoffs⟩
      else if len == 0 then ⟨false, hashes, none, 1, []⟩
      else if hashes.contains (md5 c) then ⟨false, hashes, none, 1, []⟩
      else ⟨true, md5 c :: hashes, some c, 1, []⟩ : DlOut)) = _
  rw [hni]
  rfl

theorem downloadGo_resp {md5 : List Nat → Nat} {net : Nat → Attempt}
    {hashes : List Nat} {i n st len : Nat} {c : List Nat}
    (hni : net i = Attempt.resp st len c) :
    downloadGo md5 net hashes i (n + 1) =
      (if 400 ≤ st then retryOut (downloadGo md5 net hashes (i + 1) n) i n
       else if len == 0 then ⟨false, hashes, none, 1, []⟩
       else if hashes.contains (md5 c) then ⟨false, hashes, none, 1, []⟩
       else ⟨true, md5 c :: hashes, some c, 1, []⟩) := by
  show ((match net i with
    | Attempt.exc =>
      let rest := downloadGo md5 net hashes (i + 1) n
      ⟨rest.success, rest.hashes, rest.written, rest.attemptsUsed + 1,
        if 0 < n then 2 ^ i :: rest.backoffs else rest.backoffs⟩
    | Attempt.resp st len c =>
      if 400 ≤ st then
        let rest := downloadGo md5 net hashes (i + 1) n
        ⟨rest.success, rest.hashes, rest.written, rest.attemptsUsed + 1,
          if 0 < n then 2 ^ i :: rest.backoffs else rest.backoffs⟩
      else if len == 0 then ⟨false, hashes, none, 1, []⟩
      else if hashes.contains (md5 c) then ⟨false, hashes, none, 1, []⟩
      else ⟨true, md5 c :: hashes, some c, 1, []⟩ : DlOut)) = _
  rw [hni]
  rfl

theorem firstGood_exc {net : Nat → Attempt} {i n : Nat}
    (hni : net i = Attempt.exc) :
    firstGood net i (n + 1) = firstGood net (i + 1) n := by
  show (match net i with
    | Attempt.exc => firstGood net (i + 1) n
    | Attempt.resp st len c =>
      if 400 ≤ st then firstGood net (i + 1) n else some (len, c)) = _
  rw [hni]

theorem firstGood_resp {net : Nat → Attempt} {i n st len : Nat} {c : List Nat}
    (hni : net i = Attempt.resp st len c) :
    firstGood net i (n + 1) =
      (if 400 ≤ st then firstGood net (i + 1) n else some (len, c)) := by
  show (match net i with
    | Attempt.exc => firstGood net (i + 1) n
    | Attempt.resp st len c =>
      if 400 ≤ st then firstGood net (i + 1) n else some (len, c)) = _
  rw [hni]

theorem downloadGo_success {md5 : List Nat → Nat} {net : Nat → Attempt}
    {hashes : List Nat} : ∀ (n i : Nat),
    (downloadGo md5 net hashes i n).success = true →
    ∃ c, (downloadGo md5 net hashes i n).written = some c ∧
      (downloadGo md5 net hashes i n).hashes = md5 c :: hashes := by
  intro n
  induction n with
  | zero => intro i h; cases h
  | succ n ih =>
    intro i h
    cases hni : net i with
    | exc =>
      rw [downloadGo_exc hni] at h ⊢
      exact ih (i + 1) h
    | resp st len c =>
      rw [downloadGo_resp hni] at h ⊢
      by_cases hst : 400 ≤ st
      · rw [if_pos hst] at h ⊢
        exact ih (i + 1) h
      · rw [if_neg hst] at h ⊢
        by_cases hlen : (len == 0) = true
        · rw [if_pos hlen] at h; cases h
        · rw [if_neg hlen] at h ⊢
          by_cases hdup : hashes.contains (md5 c) = true
          · rw [if_pos hdup] at h; cases h
          · rw [if_neg hdup]
            exact ⟨c, rfl, rfl⟩

theorem downloadGo_dup {md5 : List Nat → Nat} {net : Nat → Attempt}
    {hashes : List Nat} {len : Nat} {c : List Nat} : ∀ (n i : Nat),
    firstGood net i n = some (len, c) → hashes.contains (md5 c) = true →
    (downloadGo md5 net hashes i n).success = false ∧
      (downloadGo md5 net hashes i n).written = none ∧
      (downloadGo md5 net hashes i n).hashes = hashes := by
  intro n
  induction n with
  | zero => intro i h _; cases h
  | succ n ih =>
    intro i hfg hmem
    cases hni : net i with
    | exc =>
      rw [firstGood_exc hni] at hfg
      rw [downloadGo_exc hni]
      exact ih (i + 1) hfg hmem
    | resp st len2 c2 =>
      rw [firstGood_resp hni] at hfg
      rw [downloadGo_resp hni]
      by_cases hst : 400 ≤ st
      · rw [if_pos hst] at hfg ⊢
        exact ih (i + 1) hfg hmem
      · rw [if_neg hst] at hfg ⊢
        injection hfg with hfg
        injection hfg with h1 h2
        rw [h1, h2]
        by_cases hlen : (len == 0) = true
        · rw [if_pos hlen]
          exact ⟨rfl, rfl, rfl⟩
        · rw [if_neg hlen, if_pos hmem]
          exact ⟨rfl, rfl, rfl⟩

theorem downloadGo_attempts_le {md5 : List Nat → Nat} {net : Nat → Attempt}
    {hashes : List Nat} : ∀ (n i : Nat),
    (downloadGo md5 net hashes i n).attemptsUsed ≤ n := by
  intro n
  induction n with
  | zero => intro i; exact le_rfl
  | succ n ih =>
    intro i
    cases hni : net i with
    | exc =>
      rw [downloadGo_exc hni]
      exact Nat.succ_le_succ (ih (i + 1))
    | resp st len c =>
      rw [downloadGo_resp hni]
      by_cases hst : 400 ≤ st
      · rw [if_pos hst]
        exact Nat.succ_le_succ (ih (i + 1))
      · rw [if_neg hst]
        by_cases hlen : (len == 0) = true
        · rw [if_pos hlen]
          show 1 ≤ n + 1
          omega
        · rw [if_neg hlen]
          by_cases hdup : hashes.contains (md5 c) = true
          · rw [if_pos hdup]
            show 1 ≤ n + 1
            omega
          · rw [if_neg hdup]
            show 1 ≤ n + 1
            omega

theorem downloadGo_attempts_pos {md5 : List Nat → Nat} {net : Nat → Attempt}
    {hashes : List Nat} : ∀ (n i : Nat), 0 < n →
    0 < (downloadGo md5 net hashes i n).attemptsUsed := by
  intro n
  cases n with
  | zero => intro i h; cases h
  | succ n =>
    intro i _
    cases hni : net i with
    | exc =>
      rw [downloadGo_exc hni]
      exact Nat.succ_pos _
    | resp st len c =>
      rw [downloadGo_resp hni]
      by_cases hst : 400 ≤ st
      · rw [if_pos hst]; exact Nat.succ_pos _
      · rw [if_neg hst]
        by_cases hlen : (len == 0) = true
        · rw [if_pos hlen]
          show 0 < 1
          omega
        · rw [if_neg hlen]
          by_cases hdup : hashes.contains (md5 c) = true
          · rw [if_pos hdup]
            show 0 < 1
            omega
          · rw [if_neg hdup]
            show 0 < 1
            omega

theorem downloadGo_backoffs {md5 : List Nat → Nat} {net : Nat → Attempt}
    {hashes : List Nat} : ∀ (n i : Nat),
    (downloadGo md5 net hashes i n).backoffs =
      (List.range ((downloadGo md5 net hashes i n).attemptsUsed - 1)).map
        (fun k => 2 ^ (i + k)) := by
  intro n
  induction n with
  | zero => intro i; rfl
  | succ n ih =>
    intro i
    have key : (retryOut (downloadGo md5 net hashes (i + 1) n) i n).backoffs =
        (List.range ((retryOut (downloadGo md5 net hashes (i + 1) n) i n).attemptsUsed - 1)).map
          (fun k => 2 ^ (i + k)) := by
      show (if 0 < n then 2 ^ i :: (downloadGo md5 net hashes (i + 1) n).backoffs
            else (downloadGo md5 net hashes (i + 1) n).backoffs) =
        (List.range ((downloadGo md5 net hashes (i + 1) n).attemptsUsed + 1 - 1)).map
          (fun k => 2 ^ (i + k))
      by_cases hn : 0 < n
      · rw [if_pos hn]
        have hpos : 0 < (downloadGo md5 net hashes (i + 1) n).attemptsUsed :=
          downloadGo_attempts_pos n (i + 1) hn
        obtain ⟨m, hm⟩ : ∃ m, (downloadGo md5 net hashes (i + 1) n).attemptsUsed = m + 1 :=
          ⟨(downloadGo md5 net hashes (i + 1) n).attemptsUsed - 1, by omega⟩
        rw [ih (i + 1), hm]
        simp only [Nat.add_sub_cancel, List.range_succ_eq_map, List.map_cons, List.map_map]
        refine congrArg₂ _ (by rw [Nat.add_zero]) (List.map_congr_left ?_)
        intro a _
        show 2 ^ (i + 1 + a) = 2 ^ (i + (a + 1))
        rw [Nat.add_assoc, Nat.add_comm 1 a]
      · rw [if_neg hn]
        have h0 : n = 0 := by omega
        subst h0
        rfl
    cases hni : net i with
    | exc =>
      rw [downloadGo_exc hni]
      exact key
    | resp st len c =>
      rw [downloadGo_resp hni]
      by_cases hst : 400 ≤ st
      · rw [if_pos hst]
        exact key
      · rw [if_neg hst]
        by_cases hlen : (len == 0) = true
        · rw [if_pos hlen]; rfl
        · rw [if_neg hlen]
          by_cases hdup : hashes.contains (md5 c) = true
          · rw [if_pos hdup]; rfl
          · rw [if_neg hdup]; rfl

theorem downloadGo_all_exc {md5 : List Nat → Nat} {net : Nat → Attempt}
    {hashes : List Nat} : ∀ (n i : Nat),
    (∀ j, i ≤ j → j < i + n → isExc (net j) = true) →
    (downloadGo md5 net hashes i n).success = false ∧
      (downloadGo md5 net hashes i n).attemptsUsed = n := by
  intro n
  induction n with
  | zero => intro i _; exact ⟨rfl, rfl⟩
  | succ n ih =>
    intro i hall
    have hi : isExc (net i) = true := hall i le_rfl (by omega)
    have hrec := ih (i + 1) (fun j hj1 hj2 => hall j (by omega) (by omega))
    cases hni : net i with
    | exc =>
      rw [downloadGo_exc hni]
      exact ⟨hrec.1, by show (downloadGo md5 net hashes (i+1) n).attemptsUsed + 1 = n + 1; rw [hrec.2]⟩
    | resp st len c =>
      rw [hni] at hi
      have hst : 400 ≤ st := by simpa [isExc] using hi
      rw [downloadGo_resp hni, if_pos hst]
      exact ⟨hrec.1, by show (downloadGo md5 net hashes (i+1) n).attemptsUsed + 1 = n + 1; rw [hrec.2]⟩

/-! ### The product orchestrator `process_product` (lines 456-584) -/

/-- Uppercase letter or digit, the regex class `[A-Z0-9]`. -/
def isAZ09 (c : Char) : Bool :=
  (65 ≤ c.toNat && c.toNat ≤ 90) || isDigitC c

/-- Attempt of `/dp/([A-Z0-9]{10})` at the head of `s`. -/
def asinAt (s : List Char) : Option (List Char) :=
  match dropPre "/dp/".toList s with
  | none => none
  | some r =>
    if (r.take 10).length == 10 && (r.take 10).all isAZ09 then some (r.take 10)
    else none

/-- `extract_asin_from_url` (lines 93-96): leftmost match of
`/dp/([A-Z0-9]{10})` in the product URL. -/
def extractAsinFromUrl : List Char → Option (List Char)
  | [] => none
  | c :: s =>
    match asinAt (c :: s) with
    | some a => some a
    | none => extractAsinFromUrl s

/-- The product dictionary fields read by `process_product`: `asin`, `url`
and `image_url` (`none` models an absent key). -/
structure Product where
  asin : Option (List Char)
  url : List Char
  imageUrl : Option (List Char)

/-- `asin = product.get('asin') or self.extract_asin_from_url(product.get('url', ''))`
(line 476), with Python truthiness: an absent or empty `asin` string falls
back to extraction from the URL. -/
def resolveAsin (p : Product) : Option (List Char) :=
  match p.asin with
  | some a => if a.isEmpty then extractAsinFromUrl p.url else some a
  | none => extractAsinFromUrl p.url

/-- The fields of `process_product`'s `result` dictionary the claims are
about.  File names (`image_01.jpg`, ...) and the metadata record carry no
claim-relevant information and are not modelled. -/
structure PResult where
  imagesDownloaded : Nat
  videosDownloaded : Nat
  errors : List (List Char)
deriving DecidableEq

/-- Head test for a literal, then one or more digits, then a second
literal. -/
def isPreLDL (l1 l2 : List Char) (s : List Char) : Bool :=
  match dropPre l1 s with
  | none => false
  | some r =>
    !(r.takeWhile isDigitC).isEmpty && isPreL l2 (r.dropWhile isDigitC)

/-- `re.search` of literal-digits-literal anywhere in `s`. -/
def containsLDL (l1 l2 : List Char) : List Char → Bool
  | [] => false
  | c :: s => isPreLDL l1 l2 (c :: s) || containsLDL l1 l2 s

/-- `re.search(r'\._AC_SL\d+_\.jpg', fallback_url, re.IGNORECASE)`
(line 502). -/
def fallbackPat (f : List Char) : Bool :=
  containsLDL "._ac_sl".toList "_.jpg".toList (f.map lowC)

/-- `extract_image_urls_from_html` (lines 118-345): the candidate URLs
produced by the five regex/DOM tiers (methods 1-5) are collected by the
parameter `tiers`; the acceptance filter, resolution upgrade, stable
ranking and truncation to `max_images` are `cleanPipeline`. -/
def extractImageUrls (tiers : List Char → List Char → List (List Char))
    (html asin : List Char) (maxImages : Nat) : List (List Char) :=
  cleanPipeline (tiers html asin) maxImages

/-- Image candidate selection of `process_product` (lines 488-510):
extraction when the page was fetched, the fallback to
`product['image_url']` when no candidate was found (appended after the
size-pattern check and the resolution upgrade of lines 502-506), and the
safety cut `image_urls[:self.max_images]` (line 510). -/
def imageCandidates (tiers : List Char → List Char → List (List Char))
    (page : Option (List Char)) (asin : List Char)
    (imageUrl : Option (List Char)) (maxImages : Nat) : List (List Char) :=
  let fromPage : List (List Char) :=
    match page with
    | some html => extractImageUrls tiers html asin maxImages
    | none => []
  let withFallback : List (List Char) :=
    if fromPage.length == 0 then
      match imageUrl with
      | some f => if !f.isEmpty && fallbackPat f then fromPage ++ [upgrade f] else fromPage
      | none => fromPage
    else fromPage
  withFallback.take maxImages

/-- The image download loop (lines 513-524): stop once
`images_downloaded` reaches `max_images`; count a download only when
`download_file` returns `True`.  `download_file` reports failures by its
return value and the log — it does not raise — so a failed download
appends nothing to `result['errors']` (only an exception in the loop body
would, and the loop body raises none). -/
def imgLoop (md5 : List Nat → Nat) (net : List Char → Nat → Attempt)
    (maxImages : Nat) : List (List Char) → Nat → List Nat → Nat × List Nat
  | [], k, σ => (k, σ)
  | u :: us, k, σ =>
    if maxImages ≤ k then (k, σ)
    else
      let d := downloadFile md5 (net u) 3 σ
      if d.success then imgLoop md5 net maxImages us (k + 1) d.hashes
      else imgLoop md5 net maxImages us k d.hashes

/-- Video URL cleaning inside the video loop (lines 543-544). -/
def vidClean (u : List Char) : List Char :=
  stripQS (cutPunct punct4 u)

/-- The video download loop (lines 535-565): stop at `max_videos`; skip
URLs that are too short or lack the https scheme; count a download only on
success. -/
def vidLoop (md5 : List Nat → Nat) (net : List Char → Nat → Attempt)
    (maxVideos : Nat) : List (List Char) → Nat → List Nat → Nat × List Nat
  | [], k, σ => (k, σ)
  | u :: us, k, σ =>
    if maxVideos ≤ k then (k, σ)
    else
      if (vidClean u).length < 20 || !(isPreL "https://".toList (vidClean u)) then
        vidLoop md5 net maxVideos us k σ
      else
        let d := downloadFile md5 (net (vidClean u)) 3 σ
        if d.success then vidLoop md5 net maxVideos us (k + 1) d.hashes
        else vidLoop md5 net maxVideos us k d.hashes

/-- `process_product` (lines 456-584) as a state transformer on the
run-scoped hash set.  Network effects are parameters: `page` is the result
of `get_product_page`, `netI`/`netV` give the per-URL attempt outcomes of
`download_file`, `tiers` the tier candidates and `extractVideos` the
result of `extract_video_urls_from_html`. -/
def processProduct (md5 : List Nat → Nat) (netI netV : List Char → Nat → Attempt)
    (tiers : List Char → List Char → List (List Char))
    (extractVideos : List Char → List (List Char))
    (page : Option (List Char)) (maxImages maxVideos : Nat)
    (p : Product) (σ : List Nat) : PResult × List Nat :=
  match resolveAsin p with
  | none => (⟨0, 0, ["Could not extract ASIN from URL".toList]⟩, σ)
  | some asin =>
    let fetchErrs : List (List Char) :=
      match page with
      | some _ => []
      | none => ["Failed to fetch product page (will try fallback)".toList]
    let ri := imgLoop md5 netI maxImages
      (imageCandidates tiers page asin p.imageUrl maxImages) 0 σ
    let vurls : List (List Char) :=
      match page with
      | some html => (extractVideos html).take maxVideos
      | none => []
    let rv := vidLoop md5 netV maxVideos vurls 0 ri.2
    (⟨ri.1, rv.1, fetchErrs⟩, rv.2)

theorem imgLoop_le {md5 : List Nat → Nat} {net : List Char → Nat → Attempt}
    {maxImages : Nat} : ∀ (us : List (List Char)) (k : Nat) (σ : List Nat),
    k ≤ maxImages → (imgLoop md5 net maxImages us k σ).1 ≤ maxImages := by
  intro us
  induction us with
  | nil => intro k σ hk; exact hk
  | cons u us ih =>
    intro k σ hk
    unfold imgLoop
    by_cases hm : maxImages ≤ k
    · rw [if_pos hm]; exact hk
    · rw [if_neg hm]
      by_cases hs : (downloadFile md5 (net u) 3 σ).success = true
      · rw [if_pos hs]
        exact ih _ _ (by omega)
      · rw [if_neg hs]
        exact ih _ _ hk

theorem vidLoop_le {md5 : List Nat → Nat} {net : List Char → Nat → Attempt}
    {maxVideos : Nat} : ∀ (us : List (List Char)) (k : Nat) (σ : List Nat),
    k ≤ maxVideos → (vidLoop md5 net maxVideos us k σ).1 ≤ maxVideos := by
  intro us
  induction us with
  | nil => intro k σ hk; exact hk
  | cons u us ih =>
    intro k σ hk
    unfold vidLoop
    by_cases hm : maxVideos ≤ k
    · rw [if_pos hm]; exact hk
    · rw [if_neg hm]
      by_cases hv : ((vidClean u).length < 20 ||
          !(isPreL "https://".toList (vidClean u))) = true
      · rw [if_pos hv]
        exact ih _ _ hk
      · rw [if_neg hv]
        by_cases hs : (downloadFile md5 (net (vidClean u)) 3 σ).success = true
        · rw [if_pos hs]
          exact ih _ _ (by omega)
        · rw [if_neg hs]
          exact ih _ _ hk

/-! ### The extractor as a state transformer (no side effects) -/

/-- `extract_image_urls_from_html` threaded through the scraper's only
mutable state, the `downloaded_hashes` set: the method reads the page
content, the target ASIN and the configured `max_images`, and neither
reads nor writes the hash set. -/
def extractImageUrlsS (tiers : List Char → List Char → List (List Char))
    (σ : List Nat) (html asin : List Char) (maxImages : Nat) :
    List (List Char) × List Nat :=
  (cleanPipeline (tiers html asin) maxImages, σ)

/-! ### The batch runner (batch_scraper.py) -/

def chunkF (batchSize : Nat) : Nat → List α → List (List α)
  | 0, _ => []
  | _ + 1, [] => []
  | fuel + 1, ps =>
    if batchSize == 0 then []
    else ps.take batchSize :: chunkF batchSize fuel (ps.drop batchSize)

/-- `split_products` (batch_scraper.py lines 53-83): chunk the product
list into groups of `batchSize` as `range(0, len(products), batch_size)`
does.  A zero `batchSize` raises `ValueError` in Python before any group
is formed; it is modelled as yielding no groups. -/
def chunkList (batchSize : Nat) (ps : List α) : List (List α) :=
  chunkF batchSize ps.length ps

/-- The batch loop of `run` (batch_scraper.py lines 158-174): 1-based
enumeration of the batch files, `continue` for every batch number below
`resume_from`; returns the batch numbers on which `scrape_batch` is
invoked, in order. -/
def runLoop (resumeFrom : Nat) : List (List α) → Nat → List Nat
  | [], _ => []
  | _ :: bs, i =>
    if i < resumeFrom then runLoop resumeFrom bs (i + 1)
    else i :: runLoop resumeFrom bs (i + 1)

/-- The batch numbers processed by `run(products_file, resume_from)`. -/
def runProcessed (products : List α) (batchSize resumeFrom : Nat) : List Nat :=
  runLoop resumeFrom (chunkList batchSize products) 1

/-- `[start, start+1, ..., start+n-1]`. -/
def natRange : Nat → Nat → List Nat
  | _, 0 => []
  | s, n + 1 => s :: natRange (s + 1) n

theorem runLoop_eq_filter {resumeFrom : Nat} :
    ∀ (batches : List (List α)) (i : Nat),
    runLoop resumeFrom batches i =
      (natRange i batches.length).filter (fun j => decide (resumeFrom ≤ j)) := by
  intro batches
  induction batches with
  | nil => intro i; rfl
  | cons b bs ih =>
    intro i
    show (if i < resumeFrom then runLoop resumeFrom bs (i + 1)
          else i :: runLoop resumeFrom bs (i + 1)) = _
    rw [show (natRange i (b :: bs).length) = i :: natRange (i + 1) bs.length from rfl,
      List.filter_cons]
    by_cases hi : i < resumeFrom
    · rw [if_pos hi, if_neg (by simp; omega), ih]
    · rw [if_neg hi, if_pos (by simp; omega), ih]

/-! ### The report generator `generate_report` (lines 620-656) -/

/-- The aggregate fields of the report dictionary; `successRate` is the
rational percentage embedded in the `success_rate` string. -/
structure Report where
  totalProducts : Nat
  totalImages : Nat
  totalVideos : Nat
  totalErrors : Nat
  successRate : Rat

/-- `generate_report(results)` (lines 620-643).  With an empty result list,
`sum(1 for r in results if ...) / len(results)` raises `ZeroDivisionError`
while the report dictionary is being built, before `open(output_file)` —
so no report file is written; the `Except.error` carries that exception. -/
def generateReport (results : List PResult) : Except (List Char) Report :=
  if results.length == 0 then Except.error "ZeroDivisionError".toList
  else Except.ok
    ⟨results.length,
     (results.map (fun r => r.imagesDownloaded)).sum,
     (results.map (fun r => r.videosDownloaded)).sum,
     (results.map (fun r => r.errors.length)).sum,
     ((results.filter (fun r => 0 < r.imagesDownloaded)).length : Rat) /
       (results.length : Rat) * 100⟩

/-! ### Claim theorems -/

/-- Claim C1: for every page content, product id, max-images configuration,
tier behaviour and URL containing a blocklisted substring (the exclusion
vocabulary of lines 251-277), the image extractor's returned candidate
list never contains that URL, regardless of which extraction tier
discovered it: the acceptance filter checks the exclusion vocabulary on
every normalised candidate from every tier, and the subsequent resolution
upgrade cannot introduce an exclusion pattern. -/
theorem claim1_exclusion (tiers : List Char → List Char → List (List Char))
    (html asin : List Char) (maxImages : Nat) (c : List Char)
    (hc : isExcluded c = true) :
    c ∉ extractImageUrls tiers html asin maxImages := by
  intro hmem
  rw [cleanPipeline_not_excluded hmem] at hc
  cases hc

theorem claim1_witness :
    isExcluded "https://m.media-amazon.com/images/related/a._AC_SL1500_.jpg".toList = true ∧
    "https://m.media-amazon.com/images/related/a._AC_SL1500_.jpg".toList ∉
      extractImageUrls
        (fun _ _ => ["https://m.media-amazon.com/images/related/a._AC_SL1500_.jpg".toList])
        "page".toList "B000000000".toList 3 :=
  ⟨by decide, claim1_exclusion _ _ _ 3 _ (by decide)⟩

/-- Claim C2: within a run, a successful download records the hash of the
written bytes in the run-scoped seen-set; any later download — from any
state still containing that record — whose accepted response body is
byte-identical is detected via the hash, reported as a failure, writes
nothing, and leaves the set unchanged.  Hence at most one file is ever
saved for byte-identical content. -/
theorem claim2_dup_suppression (md5 : List Nat → Nat) (net1 net2 : Nat → Attempt)
    (maxR1 maxR2 : Nat) (sigma sigma2 : List Nat) (c : List Nat) (len : Nat)
    (h1 : (downloadFile md5 net1 maxR1 sigma).success = true)
    (hw : (downloadFile md5 net1 maxR1 sigma).written = some c)
    (hsub : ∀ x, x ∈ (downloadFile md5 net1 maxR1 sigma).hashes → x ∈ sigma2)
    (hfg : firstGood net2 0 maxR2 = some (len, c)) :
    (downloadFile md5 net2 maxR2 sigma2).success = false ∧
      (downloadFile md5 net2 maxR2 sigma2).written = none ∧
      (downloadFile md5 net2 maxR2 sigma2).hashes = sigma2 := by
  rcases downloadGo_success maxR1 0 h1 with ⟨c', hw', hh⟩
  have hw2 : (downloadFile md5 net1 maxR1 sigma).written = some c' := hw'
  have hh2 : (downloadFile md5 net1 maxR1 sigma).hashes = md5 c' :: sigma := hh
  rw [hw] at hw2
  injection hw2 with hc
  subst hc
  have hmem : md5 c ∈ (downloadFile md5 net1 maxR1 sigma).hashes := by
    rw [hh2]
    exact List.mem_cons_self _ _
  have hmem2 : sigma2.contains (md5 c) = true := by
    have := hsub _ hmem
    exact List.elem_eq_true_of_mem this
  exact downloadGo_dup maxR2 0 hfg hmem2

theorem claim2_witness :
    (downloadFile (fun l => l.sum) (fun _ => Attempt.resp 200 3 [1, 2, 3]) 3 []).success = true ∧
    ((downloadFile (fun l => l.sum) (fun _ => Attempt.resp 200 3 [1, 2, 3]) 3
        ((downloadFile (fun l => l.sum) (fun _ => Attempt.resp 200 3 [1, 2, 3]) 3
          []).hashes)).success = false ∧
      (downloadFile (fun l => l.sum) (fun _ => Attempt.resp 200 3 [1, 2, 3]) 3
        ((downloadFile (fun l => l.sum) (fun _ => Attempt.resp 200 3 [1, 2, 3]) 3
          []).hashes)).written = none ∧
      (downloadFile (fun l => l.sum) (fun _ => Attempt.resp 200 3 [1, 2, 3]) 3
        ((downloadFile (fun l => l.sum) (fun _ => Attempt.resp 200 3 [1, 2, 3]) 3
          []).hashes)).hashes =
        (downloadFile (fun l => l.sum) (fun _ => Attempt.resp 200 3 [1, 2, 3]) 3 []).hashes) :=
  ⟨by decide,
   claim2_dup_suppression (fun l => l.sum) (fun _ => Attempt.resp 200 3 [1, 2, 3])
     (fun _ => Attempt.resp 200 3 [1, 2, 3]) 3 3 [] _ [1, 2, 3] 3
     (by decide) (by decide) (fun x h => h) (by decide)⟩

/-- Claim C3: for every product, configuration, tier behaviour and network
behaviour, the per-product result satisfies
`images_downloaded <= max_images` and `videos_downloaded <= max_videos`:
both candidate lists are truncated to the caps and both download loops
stop once the cap is reached. -/
theorem claim3_caps (md5 : List Nat → Nat) (netI netV : List Char → Nat → Attempt)
    (tiers : List Char → List Char → List (List Char))
    (extractVideos : List Char → List (List Char)) (page : Option (List Char))
    (maxImages maxVideos : Nat) (p : Product) (sigma : List Nat) :
    (processProduct md5 netI netV tiers extractVideos page maxImages maxVideos
      p sigma).1.imagesDownloaded ≤ maxImages ∧
    (processProduct md5 netI netV tiers extractVideos page maxImages maxVideos
      p sigma).1.videosDownloaded ≤ maxVideos := by
  unfold processProduct
  cases resolveAsin p with
  | none => exact ⟨Nat.zero_le _, Nat.zero_le _⟩
  | some asin =>
    exact ⟨imgLoop_le _ _ _ (Nat.zero_le _), vidLoop_le _ _ _ (Nat.zero_le _)⟩

/-- Claim C4 counterexample: the page fetch fails, the fallback image URL
is present and matches the accepted `._AC_SL<n>_.jpg` pattern, yet every
download attempt fails with a network error, so `images_downloaded` is 0:
the claim's unconditional `images_downloaded >= 1` does not hold because
the fallback download itself can fail. -/
theorem claim4_counterexample :
    fallbackPat "https://m.media-amazon.com/images/I/ab._AC_SL500_.jpg".toList = true ∧
    (processProduct (fun l => l.sum) (fun _ _ => Attempt.exc) (fun _ _ => Attempt.exc)
      (fun _ _ => []) (fun _ => []) none 3 1
      ⟨some "B000000000".toList, [], some "https://m.media-amazon.com/images/I/ab._AC_SL500_.jpg".toList⟩
      []).1.imagesDownloaded = 0 :=
  ⟨by decide, by decide⟩

/-- Claim C4 amended: if the page fetch fails entirely, the product
carries a non-empty fallback image URL matching the accepted
`._AC_SL<n>_.jpg` pattern and `max_images >= 1`, then the fallback URL —
normalised by the size-token upgrade — is the sole image candidate, and
`images_downloaded >= 1` provided the download of that candidate
succeeds. -/
theorem claim4_fallback (md5 : List Nat → Nat) (netI netV : List Char → Nat → Attempt)
    (tiers : List Char → List Char → List (List Char))
    (extractVideos : List Char → List (List Char))
    (maxImages maxVideos : Nat) (p : Product) (sigma : List Nat)
    (asin f : List Char)
    (hasin : resolveAsin p = some asin)
    (hf : p.imageUrl = some f) (hfe : f.isEmpty = false)
    (hfp : fallbackPat f = true) (hmi : 1 ≤ maxImages) :
    imageCandidates tiers none asin p.imageUrl maxImages = [upgrade f] ∧
    ((downloadFile md5 (netI (upgrade f)) 3 sigma).success = true →
      1 ≤ (processProduct md5 netI netV tiers extractVideos none maxImages maxVideos
        p sigma).1.imagesDownloaded) := by
  have hcand : imageCandidates tiers none asin p.imageUrl maxImages = [upgrade f] := by
    cases maxImages with
    | zero => omega
    | succ m =>
      unfold imageCandidates
      rw [hf]
      simp [hfe, hfp]
  refine ⟨hcand, fun hdl => ?_⟩
  unfold processProduct
  rw [hasin]
  show 1 ≤ (imgLoop md5 netI maxImages
    (imageCandidates tiers none asin p.imageUrl maxImages) 0 sigma).1
  rw [hcand]
  unfold imgLoop
  rw [if_neg (by omega), if_pos hdl]
  exact le_rfl

theorem claim4_witness :
    imageCandidates (fun _ _ => []) none "B000000000".toList
      (some "https://m.media-amazon.com/images/I/ab._AC_SL500_.jpg".toList) 3 =
      [upgrade "https://m.media-amazon.com/images/I/ab._AC_SL500_.jpg".toList] ∧
    1 ≤ (processProduct (fun l => l.sum) (fun _ _ => Attempt.resp 200 3 [1, 2, 3])
      (fun _ _ => Attempt.exc) (fun _ _ => []) (fun _ => []) none 3 1
      ⟨some "B000000000".toList, [], some "https://m.media-amazon.com/images/I/ab._AC_SL500_.jpg".toList⟩
      []).1.imagesDownloaded := by
  have h := claim4_fallback (fun l => l.sum) (fun _ _ => Attempt.resp 200 3 [1, 2, 3])
    (fun _ _ => Attempt.exc) (fun _ _ => []) (fun _ => []) 3 1
    ⟨some "B000000000".toList, [], some "https://m.media-amazon.com/images/I/ab._AC_SL500_.jpg".toList⟩
    [] "B000000000".toList "https://m.media-amazon.com/images/I/ab._AC_SL500_.jpg".toList
    (by decide) rfl (by decide) (by decide) (by omega)
  exact ⟨h.1, h.2 (by decide)⟩

/-- Claim C5 counterexample: a 404 response is not terminal.  With a 404
on the first attempt and a 200 on the second, `download_file` makes a
second attempt on the same URL and succeeds — `raise_for_status` turns
every 4xx (429 or not) into a `requests.RequestException`, which the loop
catches and retries. -/
theorem claim5_counterexample :
    (downloadFile (fun l => l.sum)
      (fun i => if i == 0 then Attempt.resp 404 5 [9] else Attempt.resp 200 5 [9])
      3 []).attemptsUsed = 2 ∧
    (downloadFile (fun l => l.sum)
      (fun i => if i == 0 then Attempt.resp 404 5 [9] else Attempt.resp 200 5 [9])
      3 []).success = true :=
  ⟨by decide, by decide⟩

/-- Claim C5 amended: the fetcher makes at most `max_retries` attempts;
the backoff delays are exactly `2^0, 2^1, ...` seconds after each failed
non-final attempt (exponential, doubling); and a failed attempt is retried
precisely when it raises `requests.RequestException` — a network
error/timeout or any HTTP status of 400 and above, all 4xx included —
while zero-length and duplicate responses are terminal.  In particular if
every attempt raises, all `max_retries` attempts are made and the download
fails. -/
theorem claim5_retry (md5 : List Nat → Nat) (net : Nat → Attempt) (maxR : Nat)
    (sigma : List Nat) :
    (downloadFile md5 net maxR sigma).attemptsUsed ≤ maxR ∧
    (downloadFile md5 net maxR sigma).backoffs =
      (List.range ((downloadFile md5 net maxR sigma).attemptsUsed - 1)).map
        (fun k => 2 ^ k) ∧
    ((∀ j, j < maxR → isExc (net j) = true) →
      (downloadFile md5 net maxR sigma).success = false ∧
        (downloadFile md5 net maxR sigma).attemptsUsed = maxR) := by
  refine ⟨downloadGo_attempts_le maxR 0, ?_, ?_⟩
  · have h := @downloadGo_backoffs md5 net sigma maxR 0
    simpa using h
  · intro hall
    exact downloadGo_all_exc maxR 0 (fun j _ hj2 => hall j (by omega))

theorem claim5_witness :
    (downloadFile (fun l => l.sum) (fun _ => Attempt.resp 404 5 []) 3 []).success = false ∧
    (downloadFile (fun l => l.sum) (fun _ => Attempt.resp 404 5 []) 3 []).attemptsUsed = 3 ∧
    (downloadFile (fun l => l.sum) (fun _ => Attempt.resp 404 5 []) 3 []).backoffs = [1, 2] := by
  have h := claim5_retry (fun l => l.sum) (fun _ => Attempt.resp 404 5 []) 3 []
  have h3 := h.2.2 (fun j _ => by decide)
  refine ⟨h3.1, h3.2, ?_⟩
  rw [h.2.1, h3.2]
  decide

/-- Claim C7 counterexample: the first image candidate's download fails
with retries exhausted, yet the product's `errors` list stays empty — the
failure is only written to the log by `download_file`, never appended to
`result['errors']` — while the second candidate is still attempted and
downloaded. -/
theorem claim7_counterexample :
    (processProduct (fun l => l.sum)
      (fun u _ => if u == "https://m.media-amazon.com/images/I/aa._AC_SL1500_.jpg".toList
        then Attempt.exc else Attempt.resp 200 3 [7])
      (fun _ _ => Attempt.exc)
      (fun _ _ => ["https://m.media-amazon.com/images/I/aa._AC_SL1500_.jpg".toList,
                   "https://m.media-amazon.com/images/I/bb._AC_SL1500_.jpg".toList])
      (fun _ => []) (some "page".toList) 3 1
      ⟨some "B000000000".toList, [], none⟩ []).1.errors = [] ∧
    (processProduct (fun l => l.sum)
      (fun u _ => if u == "https://m.media-amazon.com/images/I/aa._AC_SL1500_.jpg".toList
        then Attempt.exc else Attempt.resp 200 3 [7])
      (fun _ _ => Attempt.exc)
      (fun _ _ => ["https://m.media-amazon.com/images/I/aa._AC_SL1500_.jpg".toList,
                   "https://m.media-amazon.com/images/I/bb._AC_SL1500_.jpg".toList])
      (fun _ => []) (some "page".toList) 3 1
      ⟨some "B000000000".toList, [], none⟩ []).1.imagesDownloaded = 1 :=
  ⟨by decide, by decide⟩

/-- Claim C7 amended: a failed download (`download_file` returning `False`
after exhausted retries, a zero-length header or a detected duplicate)
does not stop the loop — the remaining candidates are processed from the
updated hash-set state — but the failure is not recorded in the product's
errors list: `errors` receives entries only from exceptions raised in the
loop body, and `download_file` reports failure by its return value and the
log instead of raising. -/
theorem claim7_failures (md5 : List Nat → Nat) (netI netV : List Char → Nat → Attempt)
    (tiers : List Char → List Char → List (List Char))
    (extractVideos : List Char → List (List Char)) (html : List Char)
    (maxImages maxVideos k : Nat) (u : List Char) (us : List (List Char))
    (p : Product) (sigma sigma0 : List Nat) (asin : List Char)
    (hk : k < maxImages)
    (hfail : (downloadFile md5 (netI u) 3 sigma).success = false)
    (hasin : resolveAsin p = some asin) :
    imgLoop md5 netI maxImages (u :: us) k sigma =
      imgLoop md5 netI maxImages us k (downloadFile md5 (netI u) 3 sigma).hashes ∧
    (processProduct md5 netI netV tiers extractVideos (some html) maxImages maxVideos
      p sigma0).1.errors = [] := by
  constructor
  · show (if maxImages ≤ k then ((k : Nat), sigma)
        else
          if (downloadFile md5 (netI u) 3 sigma).success then
            imgLoop md5 netI maxImages us (k + 1) (downloadFile md5 (netI u) 3 sigma).hashes
          else imgLoop md5 netI maxImages us k (downloadFile md5 (netI u) 3 sigma).hashes) = _
    rw [if_neg (by omega), if_neg (by rw [hfail]; exact Bool.false_ne_true)]
  · unfold processProduct
    rw [hasin]

theorem claim7_witness :
    (imgLoop (fun l => l.sum) (fun _ _ => Attempt.exc) 3 ["u".toList] 0 [] =
      imgLoop (fun l => l.sum) (fun _ _ => Attempt.exc) 3 [] 0
        (downloadFile (fun l => l.sum) ((fun (_ : List Char) (_ : Nat) => Attempt.exc) "u".toList) 3 []).hashes) ∧
    (processProduct (fun l => l.sum) (fun _ _ => Attempt.exc) (fun _ _ => Attempt.exc)
      (fun _ _ => []) (fun _ => []) (some "h".toList) 3 1
      ⟨some "B000000000".toList, [], none⟩ []).1.errors = [] := by
  have h := claim7_failures (fun l => l.sum) (fun _ _ => Attempt.exc) (fun _ _ => Attempt.exc)
    (fun _ _ => []) (fun _ => []) "h".toList 3 1 0 "u".toList []
    ⟨some "B000000000".toList, [], none⟩ [] [] "B000000000".toList
    (by omega) (by decide) (by decide)
  exact ⟨h.1, h.2⟩

/-- Claim C8: the image extractor is deterministic and has no side effects
on program state.  Run against any two states of the run-scoped hash set
(the scraper's only mutable state), it returns the same candidate URLs in
the same order; it leaves the state untouched; and a second invocation
after the first returns the same output again. -/
theorem claim8_deterministic (tiers : List Char → List Char → List (List Char))
    (sigma sigma' : List Nat) (html asin : List Char) (maxImages : Nat) :
    (extractImageUrlsS tiers sigma html asin maxImages).1 =
      (extractImageUrlsS tiers sigma' html asin maxImages).1 ∧
    (extractImageUrlsS tiers sigma html asin maxImages).2 = sigma ∧
    (extractImageUrlsS tiers
        (extractImageUrlsS tiers sigma html asin maxImages).2 html asin maxImages).1 =
      (extractImageUrlsS tiers sigma html asin maxImages).1 :=
  ⟨rfl, rfl, rfl⟩

/-- Claim C9: for a batch run with resume point `r` over `n` groups, the
processed group numbers are exactly the numbers in `[1, n]` that are at
least `r`, in order — every group numbered below `r` is skipped before any
per-group work, and processing runs from group `r` through group `n`. -/
theorem claim9_resume {α : Type} (products : List α) (batchSize resumeFrom : Nat) :
    runProcessed products batchSize resumeFrom =
      (natRange 1 (chunkList batchSize products).length).filter
        (fun j => decide (resumeFrom ≤ j)) ∧
    ∀ i, i < resumeFrom → i ∉ runProcessed products batchSize resumeFrom := by
  have h := @runLoop_eq_filter α resumeFrom (chunkList batchSize products) 1
  refine ⟨h, ?_⟩
  intro i hi hmem
  rw [runProcessed, h] at hmem
  rcases List.mem_filter.mp hmem with ⟨_, hdec⟩
  simp only [decide_eq_true_eq] at hdec
  omega

theorem claim9_witness :
    runProcessed (List.range 30) 10 2 = [2, 3] ∧
    1 ∉ runProcessed (List.range 30) 10 2 := by
  have h := claim9_resume (List.range 30) 10 2
  exact ⟨by decide, h.2 1 (by decide)⟩

/-- Claim C10: report generation on an empty result list raises
`ZeroDivisionError` while computing the success rate, before any report
file is written; on every non-empty list the success-rate division is
well-defined and equals (as a percentage) the fraction of products with
`images_downloaded > 0`. -/
theorem claim10_report (results : List PResult) :
    (results = [] → generateReport results = Except.error "ZeroDivisionError".toList) ∧
    (results ≠ [] → ∃ rep, generateReport results = Except.ok rep ∧
      rep.successRate * (results.length : Rat) =
        100 * ((results.filter (fun r => 0 < r.imagesDownloaded)).length : Rat)) := by
  constructor
  · rintro rfl; rfl
  · intro hne
    have hlen : results.length ≠ 0 := fun h => hne (List.eq_nil_of_length_eq_zero h)
    have hbeq : (results.length == 0) = false := by
      cases h : results.length == 0 with
      | false => rfl
      | true => exact absurd (by simpa using h) hlen
    unfold generateReport
    rw [hbeq, if_neg Bool.false_ne_true]
    refine ⟨_, rfl, ?_⟩
    have hq : (results.length : Rat) ≠ 0 := by
      simpa using hlen
    field_simp
    ring

theorem claim10_witness :
    generateReport [] = Except.error "ZeroDivisionError".toList ∧
    ∃ rep, generateReport [(⟨2, 0, []⟩ : PResult)] = Except.ok rep ∧
      rep.successRate * (([(⟨2, 0, []⟩ : PResult)].length : Nat) : Rat) =
        100 * ((([(⟨2, 0, []⟩ : PResult)].filter
          (fun r => 0 < r.imagesDownloaded)).length : Rat)) :=
  ⟨(claim10_report []).1 rfl, (claim10_report [⟨2, 0, []⟩]).2 (by simp)⟩

/-- Claim C6 counterexample: the URL `x_AC_SL500_y` contains the size
token `_AC_SL500_` (so `re.search(r'_AC_SL\d+_', u)` matches) but not the
dot-prefixed guard substring `._AC_SL`, so the upgrade returns it
unchanged and the result does not contain the maximum size token
`_AC_SL1500_` — refuting the claim that the presence of any size token
implies the maximum token in the output. -/
theorem claim6_counterexample :
    hasMatch "x_AC_SL500_y".toList = true ∧
    upgrade "x_AC_SL500_y".toList = "x_AC_SL500_y".toList ∧
    containsL replSL (upgrade "x_AC_SL500_y".toList) = false :=
  ⟨by decide, by decide, by decide⟩

/-- Claim C6 amended: the resolution upgrade is a pure function that is
idempotent on every URL; whenever the URL contains a dot-prefixed size
token `._AC_SL<n>_` (the shape the guard `'._AC_SL' in url` recognises),
the result contains the maximum size token `_AC_SL1500_`; and a URL
containing no size token at all is returned unchanged. -/
theorem claim6_upgrade (u : List Char) :
    upgrade (upgrade u) = upgrade u ∧
    (hasDotMatch u = true → containsL replSL (upgrade u) = true) ∧
    (hasMatch u = false → upgrade u = u) := by
  refine ⟨upgrade_idem u, ?_, ?_⟩
  · intro h
    unfold upgrade
    rw [if_pos (hasDotMatch_guard h)]
    exact hasDotMatch_subSL_replSL h
  · intro h
    unfold upgrade
    by_cases g : containsL "._AC_SL".toList u = true
    · rw [if_pos g]
      exact hasMatch_false_subSL h
    · rw [if_neg g]

theorem claim6_witness :
    (upgrade (upgrade "a._AC_SL500_.jpg".toList) = upgrade "a._AC_SL500_.jpg".toList ∧
     containsL replSL (upgrade "a._AC_SL500_.jpg".toList) = true) ∧
    (hasMatch "abc".toList = false ∧ upgrade "abc".toList = "abc".toList) :=
  ⟨⟨(claim6_upgrade "a._AC_SL500_.jpg".toList).1,
    (claim6_upgrade "a._AC_SL500_.jpg".toList).2.1 (by decide)⟩,
   ⟨by decide, (claim6_upgrade "abc".toList).2.2 (by decide)⟩⟩

end Cardy
